import Mathlib

set_option maxHeartbeats 1000000
set_option maxRecDepth 4096

namespace Neblio

/-- Keys of the key-value store: opaque byte strings (spec section 3). -/
abbrev Key := List Nat

/-- Values of the key-value store: opaque byte strings (spec section 3). -/
abbrev Val := List Nat

/-- Modelled from the spec: the closed set of the seven named indexes of the
IDB interface (spec section 3; the enum of the tests). -/
inductive Index where
  | DB_MAIN_INDEX
  | DB_BLOCKINDEX_INDEX
  | DB_BLOCKS_INDEX
  | DB_TX_INDEX
  | DB_NTP1TX_INDEX
  | DB_NTP1TOKENNAMES_INDEX
  | DB_ADDRSVSPUBKEYS_INDEX
  deriving DecidableEq, Repr

/-- Modelled from the spec: which indexes allow duplicate keys (spec section 6:
the duplicate-allowed set is NTP1TOKENNAMES and ADDRSVSPUBKEYS; the others are
single-valued). -/
def DuplicateKeysAllowed : Index → Bool
  | .DB_NTP1TOKENNAMES_INDEX => true
  | .DB_ADDRSVSPUBKEYS_INDEX => true
  | _ => false

/-- Logical content of a whole database: for every index and key, the
insertion-ordered sequence of stored values; the empty list means the key is
absent (spec section 3).  The per-index map is modelled extensionally, as the
function from keys to value sequences. -/
abbrev Store := Index → Key → List Val

def emptyStore : Store := fun _ _ => []

/-- Modelled from the spec: effect of write(index, key, value) on the logical
store (spec section 4.1): for duplicate-allowed indexes the value is appended,
for single-valued indexes it replaces the stored value. -/
def storeWrite (st : Store) (i : Index) (k : Key) (v : Val) : Store :=
  fun j k2 =>
    if j = i ∧ k2 = k then
      (if DuplicateKeysAllowed i then st i k ++ [v] else [v])
    else st j k2

/-- Modelled from the spec: effect of erase(index, key) (spec section 4.1):
removes the key entirely on a single-valued index, and one value (here: the
first) on a duplicate-allowed index. -/
def storeErase (st : Store) (i : Index) (k : Key) : Store :=
  fun j k2 =>
    if j = i ∧ k2 = k then
      (if DuplicateKeysAllowed i then (st i k).tail else [])
    else st j k2

/-- Modelled from the spec: effect of eraseAll(index, key) (spec section 4.1):
removes every value stored for the key. -/
def storeEraseAll (st : Store) (i : Index) (k : Key) : Store :=
  fun j k2 => if j = i ∧ k2 = k then [] else st j k2

/-- The operations a client can invoke on any backend or cache stack
(the IDB interface, spec section 4.1).  The size hint of flush and of
beginDBTransaction only pre-sizes the persistent map and has no logical
effect, so beginDBTransaction carries none here. -/
inductive Action where
  | write (i : Index) (k : Key) (v : Val)
  | erase (i : Index) (k : Key)
  | eraseAll (i : Index) (k : Key)
  | beginDBTransaction
  | commitDBTransaction
  | abortDBTransaction
  | flush (hint : Nat)
  deriving DecidableEq, Repr

/-- Whether an action is a plain data mutation (write or erase or eraseAll). -/
def Action.isMut : Action → Bool
  | .write _ _ _ => true
  | .erase _ _ => true
  | .eraseAll _ _ => true
  | _ => false

/-- Whether an action is an explicit flush call. -/
def Action.isFlush : Action → Bool
  | .flush _ => true
  | _ => false

/-- Effect of one action on a bare logical store; transaction control and
flush do not change the store itself. -/
def applyStore (st : Store) : Action → Store
  | .write i k v => storeWrite st i k v
  | .erase i k => storeErase st i k
  | .eraseAll i k => storeEraseAll st i k
  | _ => st

def applyStoreList (st : Store) (acts : List Action) : Store :=
  acts.foldl applyStore st

/-- Modelled from the spec: the logical state shared by the in-memory backend
InMemoryDB (spec section 4.3: transactions are snapshot-copy on begin; commit
swaps, abort discards) and, observationally, the persistent backend LMDB
(section 4.3 declares them semantically identical).  cur is the state reads
observe; snap is the state saved when a write transaction was begun (none
when no transaction is open). -/
structure InMemoryDB where
  cur : Store
  snap : Option Store

def initMem : InMemoryDB := ⟨emptyStore, none⟩

/-- Modelled from the spec: one step of the backend (spec sections 4.1 to 4.3).
Mutations apply to the visible store; begin saves a snapshot (a nested begin
fails and changes nothing); commit drops the snapshot keeping the staged
writes; abort restores the snapshot; flush has no logical effect. -/
def InMemoryDB.applyAct (s : InMemoryDB) : Action → InMemoryDB
  | .write i k v => { s with cur := storeWrite s.cur i k v }
  | .erase i k => { s with cur := storeErase s.cur i k }
  | .eraseAll i k => { s with cur := storeEraseAll s.cur i k }
  | .beginDBTransaction => if s.snap.isSome then s else { s with snap := some s.cur }
  | .commitDBTransaction => { s with snap := none }
  | .abortDBTransaction => ⟨s.snap.getD s.cur, none⟩
  | .flush _ => s

/-- Run of the in-memory backend from the empty database. -/
def runMem (acts : List Action) : InMemoryDB :=
  acts.foldl InMemoryDB.applyAct initMem

/-- Byte-wise slice taken by read(index, key, offset, size) (spec section
4.1): the returned substring starts at offset, clamped to the value length,
and extends up to size bytes, where an absent size means to the end. -/
def sliceVal (v : Val) (offset : Nat) (size : Option Nat) : Val :=
  (v.drop offset).take (size.getD (v.length - offset))

/-- Result of read on a resolved value sequence: absent key gives none, else
the first stored value sliced (spec section 4.1: for duplicate indexes one of
the values is returned; the model returns the first). -/
def readVals (vs : List Val) (offset : Nat) (size : Option Nat) : Option Val :=
  match vs with
  | [] => none
  | v :: _ => some (sliceVal v offset size)

/-- Modelled from the spec: one buffered per-key record of a write-buffering
cache layer (spec section 4.4: the pending buffer holds tombstones,
overwrites and appends).  An overwrite fixes the value sequence of the key
at this layer (the empty sequence is a tombstone); an append extends
whatever the lower layers hold. -/
inductive BufEntry where
  | overwrite (vs : List Val)
  | append (vs : List Val)
  deriving DecidableEq, Repr

/-- A cache buffer: per (index, key) records, most recently touched first.
Keys are unique by construction (setBuf removes older records). -/
abbrev Buf := List ((Index × Key) × BufEntry)

def entryApply (e : BufEntry) (low : List Val) : List Val :=
  match e with
  | .overwrite vs => vs
  | .append vs => low ++ vs

def lookupBuf (b : Buf) (ik : Index × Key) : Option BufEntry :=
  match b with
  | [] => none
  | (ik2, e) :: rest => if ik2 = ik then some e else lookupBuf rest ik

/-- Stores a record for the key at the most-recently-used front, removing any
older record for the same key. -/
def setBuf (b : Buf) (ik : Index × Key) (e : BufEntry) : Buf :=
  (ik, e) :: b.filter fun p => p.1 ≠ ik

/-- The store a reader sees through a buffer: the buffered record decides
when present, otherwise the lower store answers (spec section 4.4: reads
check the buffer first; absence there means delegate downward; a tombstone
means absent at this layer). -/
def bufView (b : Buf) (low : Store) : Store :=
  fun i k =>
    match lookupBuf b (i, k) with
    | some e => entryApply e (low i k)
    | none => low i k

/-- Modelled from the spec: buffering a write (spec section 4.4): on a
duplicate-allowed index the value is appended to the buffered record, on a
single-valued index it overwrites it. -/
def bufWrite (b : Buf) (i : Index) (k : Key) (v : Val) : Buf :=
  let e :=
    match lookupBuf b (i, k) with
    | some (.overwrite vs) =>
      if DuplicateKeysAllowed i then BufEntry.overwrite (vs ++ [v]) else .overwrite [v]
    | some (.append vs) =>
      if DuplicateKeysAllowed i then BufEntry.append (vs ++ [v]) else .overwrite [v]
    | none =>
      if DuplicateKeysAllowed i then BufEntry.append [v] else .overwrite [v]
  setBuf b (i, k) e

/-- Modelled from the spec: buffering an erase.  On a single-valued index a
tombstone is recorded; on a duplicate-allowed index the layer reads the
currently visible sequence and records it with its first value removed
(read-modify-write, so the erase of one value is pinned at this layer). -/
def bufErase (b : Buf) (i : Index) (k : Key) (visible : List Val) : Buf :=
  setBuf b (i, k)
    (if DuplicateKeysAllowed i then BufEntry.overwrite visible.tail else .overwrite [])

/-- Modelled from the spec: buffering an eraseAll records a tombstone. -/
def bufEraseAll (b : Buf) (i : Index) (k : Key) : Buf :=
  setBuf b (i, k) (.overwrite [])

/-- Merging one record of a committed nested transaction buffer into the
parent buffer (spec section 4.4: commit merges the nested buffer into the
parent). -/
def mergeEntry (b : Buf) (ik : Index × Key) (e : BufEntry) : Buf :=
  match e with
  | .overwrite vs => setBuf b ik (.overwrite vs)
  | .append vs =>
    match lookupBuf b ik with
    | some (.overwrite ws) => setBuf b ik (.overwrite (ws ++ vs))
    | some (.append ws) => setBuf b ik (.append (ws ++ vs))
    | none => setBuf b ik (.append vs)

def mergeBuf (b : Buf) (t : Buf) : Buf :=
  t.foldl (fun acc p => mergeEntry acc p.1 p.2) b

/-- Bytes held by one buffered record (used against cacheMaxSize). -/
def entrySize : BufEntry → Nat
  | .overwrite vs => (vs.map List.length).sum
  | .append vs => (vs.map List.length).sum

/-- Buffered byte count of a cache buffer (spec section 4.4: the flush
threshold is on the buffered size in bytes). -/
def bufSize (b : Buf) : Nat :=
  (b.map fun p => p.1.2.length + entrySize p.2).sum

/-- The actions that replay one buffered record on the lower layer during a
flush: a tombstone or overwrite erases every value of the key and rewrites
the recorded sequence; an append writes the recorded values. -/
def entryActions (ik : Index × Key) : BufEntry → List Action
  | .overwrite vs => Action.eraseAll ik.1 ik.2 :: vs.map (Action.write ik.1 ik.2)
  | .append vs => vs.map (Action.write ik.1 ik.2)

/-- All replay actions of a buffer, record by record. -/
def bufActions (b : Buf) : List Action :=
  (b.map fun p => entryActions p.1 p.2).flatten

/-- Modelled from the spec: state of a write-buffering cache layer
(DBCacheLayer, spec section 4.4; also the shape of the LRU variant
DBLRUCacheLayer, section 4.6).  buf is the committed pending buffer, tbuf
the nested buffer of an open cache-level transaction, flushCount the
exposed flush counter and cacheMaxSize the auto-flush threshold (0 means
never auto-flush).  For the LRU variant the same numeric field carries
maxEntries (0 means unbounded). -/
structure DBCacheLayer (σ : Type) where
  buf : Buf
  tbuf : Option Buf
  flushCount : Nat
  cacheMaxSize : Nat
  lower : σ

/-- The value sequence visible through a write-buffering cache layer: the
nested transaction buffer decides first, then the committed buffer, then the
lower layer (spec section 4.4: reads climb both levels). -/
def cacheVals {σ : Type} (lv : σ → Store) (s : DBCacheLayer σ) : Store :=
  fun i k =>
    match s.tbuf with
    | none => bufView s.buf (lv s.lower) i k
    | some tb => bufView tb (bufView s.buf (lv s.lower)) i k

/-- Replays a list of actions on a lower-layer state. -/
def runLower {σ : Type} (ap : σ → Action → σ) (st : σ) (acts : List Action) : σ :=
  acts.foldl ap st

/-- Modelled from the spec: the flush of a write-buffering cache layer (spec
section 4.4): open a write transaction on the lower layer, replay the
buffered records, commit, empty the buffer and bump the flush counter.  The
size hint only pre-sizes the lower map, with no logical effect. -/
def flushCache {σ : Type} (ap : σ → Action → σ) (s : DBCacheLayer σ) : DBCacheLayer σ :=
  { s with
    buf := []
    flushCount := s.flushCount + 1
    lower := runLower ap s.lower
      (Action.beginDBTransaction :: bufActions s.buf ++ [Action.commitDBTransaction]) }

/-- Applies one data mutation to the active buffer of a write-buffering
cache layer (the nested buffer when a cache-level transaction is open,
else the committed buffer). -/
def cacheMutate {σ : Type} (lv : σ → Store) (a : Action) (s : DBCacheLayer σ) :
    DBCacheLayer σ :=
  let target := s.tbuf.getD s.buf
  let newb :=
    match a with
    | .write i k v => bufWrite target i k v
    | .erase i k => bufErase target i k (cacheVals lv s i k)
    | .eraseAll i k => bufEraseAll target i k
    | _ => target
  match s.tbuf with
  | some _ => { s with tbuf := some newb }
  | none => { s with buf := newb }

/-- Modelled from the spec: auto-flush of the write-through cache after a
mutation (spec section 4.4): when no cache-level transaction is open, a
nonzero cacheMaxSize is configured and the buffered byte count exceeds it,
the whole buffer is flushed. -/
def wtcAuto {σ : Type} (ap : σ → Action → σ) (s : DBCacheLayer σ) : DBCacheLayer σ :=
  if s.tbuf.isNone ∧ 0 < s.cacheMaxSize ∧ s.cacheMaxSize < bufSize s.buf then
    flushCache ap s
  else s

/-- Modelled from the spec: one step of the write-through cache layer
DBCacheLayer (spec section 4.4).  Mutations go to the active buffer and may
trigger an auto-flush; begin opens a nested buffer (a nested begin fails);
commit merges the nested buffer into the parent; abort discards it; none of
the transaction control calls touches the lower layer. -/
def wtcApply {σ : Type} (lv : σ → Store) (ap : σ → Action → σ)
    (s : DBCacheLayer σ) (a : Action) : DBCacheLayer σ :=
  match a with
  | .write _ _ _ => wtcAuto ap (cacheMutate lv a s)
  | .erase _ _ => wtcAuto ap (cacheMutate lv a s)
  | .eraseAll _ _ => wtcAuto ap (cacheMutate lv a s)
  | .beginDBTransaction =>
    match s.tbuf with
    | some _ => s
    | none => { s with tbuf := some [] }
  | .commitDBTransaction =>
    match s.tbuf with
    | none => s
    | some tb => { s with tbuf := none, buf := mergeBuf s.buf tb }
  | .abortDBTransaction => { s with tbuf := none }
  | .flush _ => flushCache ap s

/-- Modelled from the spec: eviction of the LRU cache layer (spec section
4.6): when over capacity, the least recently used records (the back of the
buffer) are flushed to the lower layer inside one transaction and dropped;
a maxEntries of 0 means unbounded.  Nothing is evicted while a cache-level
transaction is open. -/
def lruEvict {σ : Type} (ap : σ → Action → σ) (s : DBCacheLayer σ) : DBCacheLayer σ :=
  if s.tbuf.isNone ∧ 0 < s.cacheMaxSize ∧ s.cacheMaxSize < s.buf.length then
    { s with
      buf := s.buf.take s.cacheMaxSize
      lower := runLower ap s.lower
        (Action.beginDBTransaction :: bufActions (s.buf.drop s.cacheMaxSize)
          ++ [Action.commitDBTransaction]) }
  else s

/-- Modelled from the spec: one step of the LRU write-buffering cache layer
DBLRUCacheLayer (spec section 4.6): as the write-through cache, except that
after a mutation excess least-recently-used records are evicted instead of
flushing the whole buffer by byte size. -/
def lruApply {σ : Type} (lv : σ → Store) (ap : σ → Action → σ)
    (s : DBCacheLayer σ) (a : Action) : DBCacheLayer σ :=
  match a with
  | .write _ _ _ => lruEvict ap (cacheMutate lv a s)
  | .erase _ _ => lruEvict ap (cacheMutate lv a s)
  | .eraseAll _ _ => lruEvict ap (cacheMutate lv a s)
  | .beginDBTransaction =>
    match s.tbuf with
    | some _ => s
    | none => { s with tbuf := some [] }
  | .commitDBTransaction =>
    match s.tbuf with
    | none => s
    | some tb => { s with tbuf := none, buf := mergeBuf s.buf tb }
  | .abortDBTransaction => { s with tbuf := none }
  | .flush _ => flushCache ap s

/-- Modelled from the spec: state of the read-through cache layer
DBReadCacheLayer (spec section 4.5): a read cache of (index, key) value
snapshots (the empty sequence records a confirmed absence), the keys touched
during an open transaction, whether a transaction is open, and a flush
counter. -/
structure DBReadCacheLayer (σ : Type) where
  cache : List ((Index × Key) × List Val)
  touched : List (Index × Key)
  inTx : Bool
  flushCount : Nat
  lower : σ

def lookupRC (c : List ((Index × Key) × List Val)) (ik : Index × Key) :
    Option (List Val) :=
  match c with
  | [] => none
  | (ik2, vs) :: rest => if ik2 = ik then some vs else lookupRC rest ik

def setRC (c : List ((Index × Key) × List Val)) (ik : Index × Key) (vs : List Val) :
    List ((Index × Key) × List Val) :=
  (ik, vs) :: c.filter fun p => p.1 ≠ ik

/-- The value sequence visible through the read-through cache: the cached
snapshot when present, else the lower layer (spec section 4.5). -/
def rtcVals {σ : Type} (lv : σ → Store) (s : DBReadCacheLayer σ) : Store :=
  fun i k =>
    match lookupRC s.cache (i, k) with
    | some vs => vs
    | none => lv s.lower i k

/-- Modelled from the spec: one step of the read-through cache layer (spec
section 4.5).  Writes, erases and eraseAll are write-through: applied to the
lower layer at once, updating the affected cache entries where the new
snapshot is known and invalidating them otherwise.  Transaction control
propagates to the lower layer; abort invalidates every entry touched during
the transaction.  flush propagates and bumps the flush counter. -/
def rtcApply {σ : Type} (ap : σ → Action → σ)
    (s : DBReadCacheLayer σ) (a : Action) : DBReadCacheLayer σ :=
  match a with
  | .write i k v =>
    let cache2 :=
      match lookupRC s.cache (i, k) with
      | some vs =>
        setRC s.cache (i, k) (if DuplicateKeysAllowed i then vs ++ [v] else [v])
      | none =>
        if DuplicateKeysAllowed i then s.cache else setRC s.cache (i, k) [v]
    { s with
      lower := ap s.lower a
      cache := cache2
      touched := if s.inTx then (i, k) :: s.touched else s.touched }
  | .erase i k =>
    let cache2 :=
      if DuplicateKeysAllowed i then
        match lookupRC s.cache (i, k) with
        | some vs => setRC s.cache (i, k) vs.tail
        | none => s.cache
      else setRC s.cache (i, k) []
    { s with
      lower := ap s.lower a
      cache := cache2
      touched := if s.inTx then (i, k) :: s.touched else s.touched }
  | .eraseAll i k =>
    { s with
      lower := ap s.lower a
      cache := setRC s.cache (i, k) []
      touched := if s.inTx then (i, k) :: s.touched else s.touched }
  | .beginDBTransaction =>
    { s with
      lower := ap s.lower a
      inTx := true
      touched := if s.inTx then s.touched else [] }
  | .commitDBTransaction =>
    { s with lower := ap s.lower a, inTx := false, touched := [] }
  | .abortDBTransaction =>
    { s with
      lower := ap s.lower a
      inTx := false
      touched := []
      cache := s.cache.filter fun p => p.1 ∉ s.touched }
  | .flush _ =>
    { s with lower := ap s.lower a, flushCount := s.flushCount + 1 }

/-- Modelled from the spec: the grammar of cache stacks over the persistent
backend (spec sections 2 and 4: a stack is the backend, or a write-through
cache, read-through cache or LRU cache over a smaller stack). -/
inductive StackDesc where
  | lmdb
  | dbCache (cacheMaxSize : Nat) (lower : StackDesc)
  | readCache (lower : StackDesc)
  | lruCache (maxEntries : Nat) (lower : StackDesc)
  deriving DecidableEq, Repr

/-- The state of a stack: the logical backend state at the bottom, wrapped
in one cache-layer state per layer. -/
def StackState : StackDesc → Type
  | .lmdb => InMemoryDB
  | .dbCache _ l => DBCacheLayer (StackState l)
  | .readCache l => DBReadCacheLayer (StackState l)
  | .lruCache _ l => DBCacheLayer (StackState l)

/-- The value sequence a reader of the stack sees for every index and key;
read, exists, readMultiple, readAll and readAllUnique all derive from it. -/
def valsOf : (d : StackDesc) → StackState d → Store
  | .lmdb, s => s.cur
  | .dbCache _ l, s => cacheVals (valsOf l) s
  | .readCache l, s => rtcVals (valsOf l) s
  | .lruCache _ l, s => cacheVals (valsOf l) s

/-- One step of the whole stack: the topmost layer interprets the action,
delegating to the lower layers as its semantics dictates. -/
def applyA : (d : StackDesc) → StackState d → Action → StackState d
  | .lmdb, s, a => s.applyAct a
  | .dbCache _ l, s, a => wtcApply (valsOf l) (applyA l) s a
  | .readCache l, s, a => rtcApply (applyA l) s a
  | .lruCache _ l, s, a => lruApply (valsOf l) (applyA l) s a

/-- The freshly opened stack over an empty backend. -/
def initState : (d : StackDesc) → StackState d
  | .lmdb => initMem
  | .dbCache m l => ⟨[], none, 0, m, initState l⟩
  | .readCache l => ⟨[], [], false, 0, initState l⟩
  | .lruCache m l => ⟨[], none, 0, m, initState l⟩

def applyActs (d : StackDesc) (s : StackState d) (acts : List Action) : StackState d :=
  acts.foldl (applyA d) s

/-- Run of a whole stack from its freshly opened state. -/
def runStack (d : StackDesc) (acts : List Action) : StackState d :=
  applyActs d (initState d) acts

/-- The IDB read operations of a stack, all derived from the visible value
sequences:  readMultiple returns the whole sequence. -/
def readMultipleOf (d : StackDesc) (s : StackState d) (i : Index) (k : Key) : List Val :=
  valsOf d s i k

/-- exists of a stack: whether the key has at least one visible value. -/
def existsOf (d : StackDesc) (s : StackState d) (i : Index) (k : Key) : Bool :=
  !(valsOf d s i k).isEmpty

/-- read of a stack, with the byte-range arguments of the interface. -/
def readOf (d : StackDesc) (s : StackState d) (i : Index) (k : Key)
    (offset : Nat) (size : Option Nat) : Option Val :=
  readVals (valsOf d s i k) offset size

/-- readAllUnique of a stack at one key: the one value the map returns for a
stored key, none for an absent key (the model picks the first stored value). -/
def readAllUniqueOf (d : StackDesc) (s : StackState d) (i : Index) (k : Key) : Option Val :=
  (valsOf d s i k).head?

/-- GetFlushCount of the topmost layer (0 for the bare backend). -/
def GetFlushCount : (d : StackDesc) → StackState d → Nat
  | .lmdb, _ => 0
  | .dbCache _ _, s => s.flushCount
  | .readCache _, s => s.flushCount
  | .lruCache _ _, s => s.flushCount

/-- A well-formed cache buffer: the per-key records carry distinct keys, and
a record on a single-valued index is an overwrite of at most one value. -/
def BufWF (b : Buf) : Prop :=
  (b.map Prod.fst).Nodup ∧
  ∀ p ∈ b, DuplicateKeysAllowed p.1.1 = false →
    ∃ vs, p.2 = BufEntry.overwrite vs ∧ vs.length ≤ 1

/-- The abstract backend state a write-buffering cache layer represents,
given the abstraction of its lower layers: visible state is the nested
buffer over the committed buffer over the lower store, and the state saved
by an open cache-level transaction is the view without the nested buffer. -/
def cacheAbs {σ : Type} (lowAbs : InMemoryDB) (s : DBCacheLayer σ) : InMemoryDB :=
  ⟨bufView (s.tbuf.getD []) (bufView s.buf lowAbs.cur),
    s.tbuf.map fun _ => bufView s.buf lowAbs.cur⟩

/-- The abstract backend state a whole stack represents. -/
def absOf : (d : StackDesc) → StackState d → InMemoryDB
  | .lmdb, s => s
  | .dbCache _ l, s => cacheAbs (absOf l s.lower) s
  | .readCache l, s => absOf l s.lower
  | .lruCache _ l, s => cacheAbs (absOf l s.lower) s

/-- Structural invariant of every reachable stack state: cache buffers are
well formed, a write-buffering layer never leaves its lower layers inside a
transaction, and the read cache only holds snapshots that agree with the
lower layers (with the touched set covering every key mutated since the
transaction began). -/
def Inv : (d : StackDesc) → StackState d → Prop
  | .lmdb, _ => True
  | .dbCache _ l, s =>
    BufWF s.buf ∧ (∀ tb, s.tbuf = some tb → BufWF tb) ∧
    (absOf l s.lower).snap = none ∧ Inv l s.lower
  | .readCache l, s =>
    (∀ p ∈ s.cache, p.2 = (absOf l s.lower).cur p.1.1 p.1.2) ∧
    (s.inTx = (absOf l s.lower).snap.isSome) ∧
    (∀ t, (absOf l s.lower).snap = some t → ∀ ik : Index × Key,
      ik ∉ s.touched → t ik.1 ik.2 = (absOf l s.lower).cur ik.1 ik.2) ∧
    Inv l s.lower
  | .lruCache _ l, s =>
    BufWF s.buf ∧ (∀ tb, s.tbuf = some tb → BufWF tb) ∧
    (absOf l s.lower).snap = none ∧ Inv l s.lower

section StoreLemmas

theorem storeWrite_self (st : Store) (i : Index) (k : Key) (v : Val) :
    storeWrite st i k v i k = (if DuplicateKeysAllowed i then st i k ++ [v] else [v]) := by
  simp [storeWrite]

theorem storeWrite_ne (st : Store) (i : Index) (k : Key) (v : Val) (j : Index) (k2 : Key)
    (h : ¬(j = i ∧ k2 = k)) : storeWrite st i k v j k2 = st j k2 := by
  simp [storeWrite, h]

theorem storeErase_self (st : Store) (i : Index) (k : Key) :
    storeErase st i k i k = (if DuplicateKeysAllowed i then (st i k).tail else []) := by
  simp [storeErase]

theorem storeErase_ne (st : Store) (i : Index) (k : Key) (j : Index) (k2 : Key)
    (h : ¬(j = i ∧ k2 = k)) : storeErase st i k j k2 = st j k2 := by
  simp [storeErase, h]

theorem storeEraseAll_self (st : Store) (i : Index) (k : Key) :
    storeEraseAll st i k i k = [] := by
  simp [storeEraseAll]

theorem storeEraseAll_ne (st : Store) (i : Index) (k : Key) (j : Index) (k2 : Key)
    (h : ¬(j = i ∧ k2 = k)) : storeEraseAll st i k j k2 = st j k2 := by
  simp [storeEraseAll, h]

end StoreLemmas

section BufLemmas

theorem lookupBuf_cons (p : (Index × Key) × BufEntry) (rest : Buf) (ik : Index × Key) :
    lookupBuf (p :: rest) ik = if p.1 = ik then some p.2 else lookupBuf rest ik := by
  rcases p with ⟨pk, pe⟩
  rfl

theorem lookupBuf_filter_ne (b : Buf) (ik ik2 : Index × Key) (h : ik2 ≠ ik) :
    lookupBuf (b.filter fun p => p.1 ≠ ik) ik2 = lookupBuf b ik2 := by
  induction b with
  | nil => rfl
  | cons p rest ih =>
    rw [List.filter_cons]
    by_cases hp : p.1 = ik
    · rw [if_neg (by simp [hp])]
      rw [lookupBuf_cons, if_neg (by rw [hp]; exact fun hq => h hq.symm), ih]
    · rw [if_pos (by simp [hp])]
      rw [lookupBuf_cons, lookupBuf_cons, ih]

theorem lookupBuf_filter_self (b : Buf) (ik : Index × Key) :
    lookupBuf (b.filter fun p => p.1 ≠ ik) ik = none := by
  induction b with
  | nil => rfl
  | cons p rest ih =>
    rw [List.filter_cons]
    by_cases hp : p.1 = ik
    · rw [if_neg (by simp [hp])]
      exact ih
    · rw [if_pos (by simp [hp])]
      rw [lookupBuf_cons, if_neg hp]
      exact ih

theorem lookupBuf_setBuf (b : Buf) (ik : Index × Key) (e : BufEntry) (ik2 : Index × Key) :
    lookupBuf (setBuf b ik e) ik2 = if ik = ik2 then some e else lookupBuf b ik2 := by
  by_cases h : ik = ik2
  · subst h
    rw [setBuf, lookupBuf_cons, if_pos rfl, if_pos rfl]
  · rw [setBuf, lookupBuf_cons, if_neg h, if_neg h,
      lookupBuf_filter_ne b ik ik2 (fun hq => h hq.symm)]

theorem lookupBuf_eq_none (b : Buf) (ik : Index × Key) (h : ik ∉ b.map Prod.fst) :
    lookupBuf b ik = none := by
  induction b with
  | nil => rfl
  | cons p rest ih =>
    simp only [List.map_cons, List.mem_cons] at h
    push_neg at h
    rw [lookupBuf_cons, if_neg (fun hq => h.1 hq.symm)]
    exact ih h.2

theorem mem_of_lookupBuf (b : Buf) (ik : Index × Key) (e : BufEntry)
    (h : lookupBuf b ik = some e) : (ik, e) ∈ b := by
  induction b with
  | nil => simp [lookupBuf] at h
  | cons p rest ih =>
    rw [lookupBuf_cons] at h
    by_cases hq : p.1 = ik
    · rw [if_pos hq] at h
      have : p = (ik, e) := by
        rcases p with ⟨pk, pe⟩
        simp at hq
        simp at h
        simp [hq, h]
      exact this ▸ List.mem_cons_self _ _
    · rw [if_neg hq] at h
      exact List.mem_cons_of_mem _ (ih h)

theorem BufWF_nil : BufWF [] := by
  constructor
  · simp
  · intro p hp
    simp at hp

theorem BufWF_setBuf (b : Buf) (ik : Index × Key) (e : BufEntry) (hb : BufWF b)
    (he : DuplicateKeysAllowed ik.1 = false →
      ∃ vs, e = BufEntry.overwrite vs ∧ vs.length ≤ 1) :
    BufWF (setBuf b ik e) := by
  obtain ⟨hnd, hent⟩ := hb
  constructor
  · simp only [setBuf, List.map_cons, List.nodup_cons]
    constructor
    · intro hmem
      rcases List.mem_map.1 hmem with ⟨p, hp, hpk⟩
      have := List.of_mem_filter hp
      simp [hpk] at this
    · exact hnd.sublist (List.Sublist.map Prod.fst (List.filter_sublist b))
  · intro p hp hdup
    rcases List.mem_cons.1 hp with h | h
    · subst h
      exact he hdup
    · exact hent p (List.mem_of_mem_filter h) hdup

theorem bufView_nil (low : Store) : bufView [] low = low := by
  funext i k
  simp [bufView, lookupBuf]

theorem bufView_setBuf (b : Buf) (ik : Index × Key) (e : BufEntry) (low : Store)
    (i : Index) (k : Key) :
    bufView (setBuf b ik e) low i k =
      (if ik = (i, k) then entryApply e (low i k) else bufView b low i k) := by
  by_cases h : ik = (i, k)
  · simp [bufView, lookupBuf_setBuf, h]
  · simp [bufView, lookupBuf_setBuf, h]

theorem bufView_bufWrite (b : Buf) (i : Index) (k : Key) (v : Val) (low : Store) :
    bufView (bufWrite b i k v) low = storeWrite (bufView b low) i k v := by
  funext j k2
  by_cases h : (i, k) = (j, k2)
  · have hj : j = i := by
      simpa using congrArg Prod.fst h.symm
    have hk : k2 = k := by
      simpa using congrArg Prod.snd h.symm
    subst hj
    subst hk
    rw [show bufWrite b j k2 v = setBuf b (j, k2) _ from rfl, bufView_setBuf,
      if_pos rfl, storeWrite_self]
    rcases hl : lookupBuf b (j, k2) with _ | e
    · by_cases hdup : DuplicateKeysAllowed j
      · simp [hdup, entryApply, bufView, hl]
      · simp [hdup, entryApply]
    · rcases e with vs | vs
      · by_cases hdup : DuplicateKeysAllowed j
        · simp [hdup, entryApply, bufView, hl]
        · simp [hdup, entryApply]
      · by_cases hdup : DuplicateKeysAllowed j
        · simp [hdup, entryApply, bufView, hl, List.append_assoc]
        · simp [hdup, entryApply]
  · rw [show bufWrite b i k v = setBuf b (i, k) _ from rfl, bufView_setBuf, if_neg h,
      storeWrite_ne]
    intro hq
    exact h (by simp [hq.1, hq.2])

theorem bufView_bufErase (b : Buf) (i : Index) (k : Key) (low : Store) :
    bufView (bufErase b i k (bufView b low i k)) low = storeErase (bufView b low) i k := by
  funext j k2
  by_cases h : (i, k) = (j, k2)
  · have hj : j = i := by
      simpa using congrArg Prod.fst h.symm
    have hk : k2 = k := by
      simpa using congrArg Prod.snd h.symm
    subst hj
    subst hk
    rw [show bufErase b j k2 _ = setBuf b (j, k2) _ from rfl, bufView_setBuf,
      if_pos rfl, storeErase_self]
    by_cases hdup : DuplicateKeysAllowed j
    · simp [hdup, entryApply]
    · simp [hdup, entryApply]
  · rw [show bufErase b i k _ = setBuf b (i, k) _ from rfl, bufView_setBuf, if_neg h,
      storeErase_ne]
    intro hq
    exact h (by simp [hq.1, hq.2])

theorem bufView_bufEraseAll (b : Buf) (i : Index) (k : Key) (low : Store) :
    bufView (bufEraseAll b i k) low = storeEraseAll (bufView b low) i k := by
  funext j k2
  by_cases h : (i, k) = (j, k2)
  · have hj : j = i := by
      simpa using congrArg Prod.fst h.symm
    have hk : k2 = k := by
      simpa using congrArg Prod.snd h.symm
    subst hj
    subst hk
    rw [show bufEraseAll b j k2 = setBuf b (j, k2) _ from rfl, bufView_setBuf,
      if_pos rfl, storeEraseAll_self]
    simp [entryApply]
  · rw [show bufEraseAll b i k = setBuf b (i, k) _ from rfl, bufView_setBuf, if_neg h,
      storeEraseAll_ne]
    intro hq
    exact h (by simp [hq.1, hq.2])

end BufLemmas

section MergeLemmas

theorem bufView_mergeEntry (b : Buf) (ik : Index × Key) (e : BufEntry) (low : Store)
    (j : Index) (k2 : Key) :
    bufView (mergeEntry b ik e) low j k2 =
      (if ik = (j, k2) then entryApply e (bufView b low j k2) else bufView b low j k2) := by
  rcases e with vs | vs
  · rw [show mergeEntry b ik (BufEntry.overwrite vs) = setBuf b ik (.overwrite vs) from rfl,
      bufView_setBuf]
    by_cases h : ik = (j, k2) <;> simp [h, entryApply]
  · by_cases h : ik = (j, k2)
    · subst h
      rcases hl : lookupBuf b (j, k2) with _ | e2
      · rw [show mergeEntry b (j, k2) (BufEntry.append vs) = setBuf b (j, k2) (.append vs) by
          simp [mergeEntry, hl], bufView_setBuf, if_pos rfl]
        simp [entryApply, bufView, hl]
      · rcases e2 with ws | ws
        · rw [show mergeEntry b (j, k2) (BufEntry.append vs)
              = setBuf b (j, k2) (.overwrite (ws ++ vs)) by simp [mergeEntry, hl],
            bufView_setBuf, if_pos rfl]
          simp [entryApply, bufView, hl]
        · rw [show mergeEntry b (j, k2) (BufEntry.append vs)
              = setBuf b (j, k2) (.append (ws ++ vs)) by simp [mergeEntry, hl],
            bufView_setBuf, if_pos rfl]
          simp [entryApply, bufView, hl, List.append_assoc]
    · rw [if_neg h]
      rcases hl : lookupBuf b ik with _ | e2
      · rw [show mergeEntry b ik (BufEntry.append vs) = setBuf b ik (.append vs) by
          simp [mergeEntry, hl], bufView_setBuf, if_neg h]
      · rcases e2 with ws | ws
        · rw [show mergeEntry b ik (BufEntry.append vs)
              = setBuf b ik (.overwrite (ws ++ vs)) by simp [mergeEntry, hl],
            bufView_setBuf, if_neg h]
        · rw [show mergeEntry b ik (BufEntry.append vs)
              = setBuf b ik (.append (ws ++ vs)) by simp [mergeEntry, hl],
            bufView_setBuf, if_neg h]

theorem mem_keys_of_lookupBuf (b : Buf) (ik : Index × Key) (e : BufEntry)
    (h : lookupBuf b ik = some e) : ik ∈ b.map Prod.fst := by
  have := mem_of_lookupBuf b ik e h
  exact List.mem_map.2 ⟨(ik, e), this, rfl⟩

theorem bufView_mergeBuf (t : Buf) (b : Buf) (low : Store)
    (hnd : (t.map Prod.fst).Nodup) :
    bufView (mergeBuf b t) low = bufView t (bufView b low) := by
  induction t generalizing b with
  | nil => simp [mergeBuf, bufView_nil, bufView, lookupBuf]
  | cons p t2 ih =>
    rcases p with ⟨ik, e⟩
    simp only [List.map_cons, List.nodup_cons] at hnd
    have step : mergeBuf b ((ik, e) :: t2) = mergeBuf (mergeEntry b ik e) t2 := rfl
    rw [step, ih _ hnd.2]
    funext j k2
    rcases hl : lookupBuf t2 (j, k2) with _ | e2
    · rw [show bufView t2 (bufView (mergeEntry b ik e) low) j k2
          = bufView (mergeEntry b ik e) low j k2 by simp [bufView, hl],
        bufView_mergeEntry]
      rw [show bufView ((ik, e) :: t2) (bufView b low) j k2
          = (if ik = (j, k2) then entryApply e (bufView b low j k2)
             else bufView b low j k2) by
        rw [bufView, lookupBuf_cons]
        by_cases hik : ik = (j, k2)
        · simp [hik]
        · simp [hik, bufView, hl]]
    · have hne : ik ≠ (j, k2) := by
        intro hq
        exact hnd.1 (hq ▸ mem_keys_of_lookupBuf t2 (j, k2) e2 hl)
      rw [show bufView t2 (bufView (mergeEntry b ik e) low) j k2
          = entryApply e2 (bufView (mergeEntry b ik e) low j k2) by simp [bufView, hl],
        bufView_mergeEntry, if_neg hne]
      rw [show bufView ((ik, e) :: t2) (bufView b low) j k2
          = entryApply e2 (bufView b low j k2) by
        rw [bufView, lookupBuf_cons, if_neg (by simpa using hne)]
        simp [bufView, hl]]

theorem BufWF_tail (p : (Index × Key) × BufEntry) (t : Buf) (h : BufWF (p :: t)) : BufWF t := by
  obtain ⟨hnd, hent⟩ := h
  simp only [List.map_cons, List.nodup_cons] at hnd
  exact ⟨hnd.2, fun q hq => hent q (List.mem_cons_of_mem _ hq)⟩

theorem BufWF_mergeEntry (b : Buf) (ik : Index × Key) (e : BufEntry) (hb : BufWF b)
    (he : DuplicateKeysAllowed ik.1 = false →
      ∃ vs, e = BufEntry.overwrite vs ∧ vs.length ≤ 1) :
    BufWF (mergeEntry b ik e) := by
  rcases e with vs | vs
  · refine BufWF_setBuf b ik _ hb ?_
    intro hdup
    rcases he hdup with ⟨vs2, hvs, hlen⟩
    refine ⟨vs, rfl, ?_⟩
    injection hvs with h2
    exact h2 ▸ hlen
  · have hdup : DuplicateKeysAllowed ik.1 = true := by
      by_contra h
      rcases he (by simpa using h) with ⟨vs2, hvs, _⟩
      exact BufEntry.noConfusion hvs
    rcases hl : lookupBuf b ik with _ | e2
    · rw [show mergeEntry b ik (BufEntry.append vs) = setBuf b ik (.append vs) by
        simp [mergeEntry, hl]]
      exact BufWF_setBuf b ik _ hb (fun hd => by rw [hdup] at hd; exact Bool.noConfusion hd)
    · rcases e2 with ws | ws
      · rw [show mergeEntry b ik (BufEntry.append vs)
            = setBuf b ik (.overwrite (ws ++ vs)) by simp [mergeEntry, hl]]
        exact BufWF_setBuf b ik _ hb (fun hd => by rw [hdup] at hd; exact Bool.noConfusion hd)
      · rw [show mergeEntry b ik (BufEntry.append vs)
            = setBuf b ik (.append (ws ++ vs)) by simp [mergeEntry, hl]]
        exact BufWF_setBuf b ik _ hb (fun hd => by rw [hdup] at hd; exact Bool.noConfusion hd)

theorem BufWF_mergeBuf (t : Buf) (b : Buf) (hb : BufWF b) (ht : BufWF t) :
    BufWF (mergeBuf b t) := by
  induction t generalizing b with
  | nil => exact hb
  | cons p t2 ih =>
    rcases p with ⟨ik, e⟩
    have step : mergeBuf b ((ik, e) :: t2) = mergeBuf (mergeEntry b ik e) t2 := rfl
    rw [step]
    refine ih _ (BufWF_mergeEntry b ik e hb ?_) (BufWF_tail _ _ ht)
    intro hdup
    exact ht.2 (ik, e) (List.mem_cons_self _ _) hdup

theorem lookupBuf_append_right (b1 b2 : Buf) (ik : Index × Key)
    (h : lookupBuf b1 ik = none) : lookupBuf (b1 ++ b2) ik = lookupBuf b2 ik := by
  induction b1 with
  | nil => rfl
  | cons p rest ih =>
    rw [lookupBuf_cons] at h
    by_cases hp : p.1 = ik
    · rw [if_pos hp] at h
      exact Option.noConfusion h
    · rw [if_neg hp] at h
      rw [List.cons_append, lookupBuf_cons, if_neg hp]
      exact ih h

theorem lookupBuf_append_left (b1 b2 : Buf) (ik : Index × Key) (e : BufEntry)
    (h : lookupBuf b1 ik = some e) : lookupBuf (b1 ++ b2) ik = some e := by
  induction b1 with
  | nil => exact Option.noConfusion h
  | cons p rest ih =>
    rw [lookupBuf_cons] at h
    rw [List.cons_append, lookupBuf_cons]
    by_cases hp : p.1 = ik
    · rw [if_pos hp] at h ⊢
      exact h
    · rw [if_neg hp] at h ⊢
      exact ih h

theorem bufView_append_disjoint (b1 b2 : Buf) (low : Store)
    (hnd : ((b1 ++ b2).map Prod.fst).Nodup) :
    bufView b1 (bufView b2 low) = bufView (b1 ++ b2) low := by
  funext j k2
  rcases hl : lookupBuf b1 (j, k2) with _ | e
  · simp [bufView, hl, lookupBuf_append_right b1 b2 (j, k2) hl]
  · have hmem : (j, k2) ∈ b1.map Prod.fst := mem_keys_of_lookupBuf b1 (j, k2) e hl
    have hnot2 : (j, k2) ∉ b2.map Prod.fst := by
      intro hmem2
      rw [List.map_append] at hnd
      exact (List.disjoint_of_nodup_append hnd) hmem hmem2
    simp [bufView, hl, lookupBuf_append_left b1 b2 (j, k2) e hl,
      lookupBuf_eq_none b2 (j, k2) hnot2]

end MergeLemmas

section ReplayLemmas

theorem applyStoreList_nil (st : Store) : applyStoreList st [] = st := rfl

theorem applyStoreList_append (st : Store) (xs ys : List Action) :
    applyStoreList st (xs ++ ys) = applyStoreList (applyStoreList st xs) ys := by
  simp [applyStoreList, List.foldl_append]

theorem applyStoreList_writes_dup (i : Index) (k : Key)
    (hdup : DuplicateKeysAllowed i = true) :
    ∀ (vs : List Val) (st : Store),
      applyStoreList st (vs.map (Action.write i k)) =
        fun j k2 => if j = i ∧ k2 = k then st i k ++ vs else st j k2 := by
  intro vs
  induction vs with
  | nil =>
    intro st
    funext j k2
    by_cases h : j = i ∧ k2 = k
    · obtain ⟨h1, h2⟩ := h
      subst h1
      subst h2
      simp [applyStoreList]
    · simp [applyStoreList, h]
  | cons v vs2 ih =>
    intro st
    have step : applyStoreList st ((v :: vs2).map (Action.write i k))
        = applyStoreList (storeWrite st i k v) (vs2.map (Action.write i k)) := rfl
    rw [step, ih]
    funext j k2
    by_cases h : j = i ∧ k2 = k
    · obtain ⟨h1, h2⟩ := h
      subst h1
      subst h2
      simp [storeWrite_self, hdup]
    · simp [h, storeWrite_ne st i k v j k2 h]

theorem applyStoreList_entryActions (i : Index) (k : Key) (e : BufEntry)
    (he : DuplicateKeysAllowed i = false →
      ∃ vs, e = BufEntry.overwrite vs ∧ vs.length ≤ 1) (st : Store) :
    applyStoreList st (entryActions (i, k) e) =
      fun j k2 => if j = i ∧ k2 = k then entryApply e (st i k) else st j k2 := by
  rcases e with vs | vs
  · have step : entryActions (i, k) (BufEntry.overwrite vs)
        = Action.eraseAll i k :: vs.map (Action.write i k) := rfl
    have step2 : applyStoreList st (Action.eraseAll i k :: vs.map (Action.write i k))
        = applyStoreList (storeEraseAll st i k) (vs.map (Action.write i k)) := rfl
    cases hdup : DuplicateKeysAllowed i with
    | false =>
      rcases he hdup with ⟨vs2, hvs, hlen⟩
      injection hvs with h2
      subst h2
      match vs, hlen with
      | [], _ =>
        rw [step, step2]
        funext j k2
        by_cases h : j = i ∧ k2 = k
        · obtain ⟨h1, h2⟩ := h
          subst h1
          subst h2
          simp [applyStoreList, storeEraseAll_self, entryApply]
        · simp [applyStoreList, storeEraseAll_ne st i k j k2 h, h]
      | [v], _ =>
        rw [step, step2]
        funext j k2
        by_cases h : j = i ∧ k2 = k
        · obtain ⟨h1, h2⟩ := h
          subst h1
          subst h2
          simp [applyStoreList, applyStore, storeWrite_self, hdup, entryApply]
        · simp [applyStoreList, applyStore, h,
            storeWrite_ne (storeEraseAll st i k) i k v j k2 h,
            storeEraseAll_ne st i k j k2 h]
      | v1 :: v2 :: rest, hlen => simp at hlen
    | true =>
      rw [step, step2, applyStoreList_writes_dup i k hdup]
      funext j k2
      by_cases h : j = i ∧ k2 = k
      · obtain ⟨h1, h2⟩ := h
        subst h1
        subst h2
        simp [storeEraseAll_self, entryApply]
      · simp [h, storeEraseAll_ne st i k j k2 h]
  · have hdup : DuplicateKeysAllowed i = true := by
      by_contra h
      rcases he (by simpa using h) with ⟨vs2, hvs, _⟩
      exact BufEntry.noConfusion hvs
    have step : entryActions (i, k) (BufEntry.append vs) = vs.map (Action.write i k) := rfl
    rw [step, applyStoreList_writes_dup i k hdup]
    funext j k2
    by_cases h : j = i ∧ k2 = k
    · obtain ⟨h1, h2⟩ := h
      subst h1
      subst h2
      simp [entryApply]
    · simp [h]

theorem bufActions_cons (p : (Index × Key) × BufEntry) (rest : Buf) :
    bufActions (p :: rest) = entryActions p.1 p.2 ++ bufActions rest := by
  simp [bufActions]

theorem applyStoreList_bufActions (b : Buf) (hwf : BufWF b) (st : Store) :
    applyStoreList st (bufActions b) = bufView b st := by
  induction b generalizing st with
  | nil => simp [bufActions, applyStoreList_nil, bufView_nil]
  | cons p rest ih =>
    rcases p with ⟨⟨i, k⟩, e⟩
    rw [bufActions_cons, applyStoreList_append,
      applyStoreList_entryActions i k e (hwf.2 ((i, k), e) (List.mem_cons_self _ _)),
      ih (BufWF_tail _ _ hwf)]
    have hnotin : (i, k) ∉ rest.map Prod.fst := by
      have := hwf.1
      simp only [List.map_cons, List.nodup_cons] at this
      exact this.1
    funext j k2
    rcases hl : lookupBuf rest (j, k2) with _ | e2
    · by_cases h : j = i ∧ k2 = k
      · obtain ⟨h1, h2⟩ := h
        subst h1
        subst h2
        simp [bufView, lookupBuf_cons, hl]
      · have hne2 : ¬ ((i, k) : Index × Key) = (j, k2) := by
          intro hq
          exact h ⟨(congrArg Prod.fst hq).symm, (congrArg Prod.snd hq).symm⟩
        simp [bufView, lookupBuf_cons, hl, h, hne2]
    · have hne : ¬ (j = i ∧ k2 = k) := by
        rintro ⟨h1, h2⟩
        subst h1
        subst h2
        exact hnotin (mem_keys_of_lookupBuf rest (j, k2) e2 hl)
      have hne2 : ¬ ((i, k) : Index × Key) = (j, k2) := by
        intro hq
        exact hne ⟨(congrArg Prod.fst hq).symm, (congrArg Prod.snd hq).symm⟩
      simp [bufView, lookupBuf_cons, hl, hne, hne2]

theorem bufActions_isMut (b : Buf) : ∀ a ∈ bufActions b, a.isMut = true := by
  induction b with
  | nil => simp [bufActions]
  | cons p rest ih =>
    intro a ha
    rw [bufActions_cons] at ha
    rcases List.mem_append.1 ha with h | h
    · rcases p with ⟨⟨i, k⟩, e⟩
      rcases e with vs | vs
      · rcases List.mem_cons.1 h with h2 | h2
        · subst h2
          rfl
        · rcases List.mem_map.1 h2 with ⟨v, _, hv⟩
          subst hv
          rfl
      · rcases List.mem_map.1 h with ⟨v, _, hv⟩
        subst hv
        rfl
    · exact ih a h

end ReplayLemmas

section MachineLemmas

theorem applyAct_mut (s : InMemoryDB) (a : Action) (h : a.isMut = true) :
    s.applyAct a = ⟨applyStore s.cur a, s.snap⟩ := by
  cases a with
  | write i k v => rfl
  | erase i k => rfl
  | eraseAll i k => rfl
  | beginDBTransaction => simp [Action.isMut] at h
  | commitDBTransaction => simp [Action.isMut] at h
  | abortDBTransaction => simp [Action.isMut] at h
  | flush hint => simp [Action.isMut] at h

theorem foldl_applyAct_muts (acts : List Action) (h : ∀ a ∈ acts, a.isMut = true) :
    ∀ s : InMemoryDB, acts.foldl InMemoryDB.applyAct s = ⟨applyStoreList s.cur acts, s.snap⟩ := by
  induction acts with
  | nil => intro s; rfl
  | cons a rest ih =>
    intro s
    have step : (a :: rest).foldl InMemoryDB.applyAct s
        = rest.foldl InMemoryDB.applyAct (s.applyAct a) := rfl
    rw [step, applyAct_mut s a (h a (List.mem_cons_self _ _)),
      ih (fun a2 ha2 => h a2 (List.mem_cons_of_mem _ ha2))]
    rfl

theorem replayMem (b : Buf) (hwf : BufWF b) (s : InMemoryDB) (hsnap : s.snap = none) :
    (Action.beginDBTransaction :: bufActions b ++ [Action.commitDBTransaction]).foldl
        InMemoryDB.applyAct s = ⟨bufView b s.cur, none⟩ := by
  have hbegin : s.applyAct Action.beginDBTransaction = ⟨s.cur, some s.cur⟩ := by
    simp [InMemoryDB.applyAct, hsnap]
  have step : (Action.beginDBTransaction :: bufActions b ++ [Action.commitDBTransaction]).foldl
      InMemoryDB.applyAct s
      = (bufActions b ++ [Action.commitDBTransaction]).foldl InMemoryDB.applyAct
        (s.applyAct Action.beginDBTransaction) := rfl
  rw [step, hbegin, List.foldl_append,
    foldl_applyAct_muts (bufActions b) (bufActions_isMut b),
    applyStoreList_bufActions b hwf]
  rfl

end MachineLemmas

section RtcLemmas

theorem lookupRC_cons (p : (Index × Key) × List Val) (rest : List ((Index × Key) × List Val))
    (ik : Index × Key) :
    lookupRC (p :: rest) ik = if p.1 = ik then some p.2 else lookupRC rest ik := by
  rcases p with ⟨pk, pv⟩
  rfl

theorem mem_of_lookupRC (c : List ((Index × Key) × List Val)) (ik : Index × Key)
    (vs : List Val) (h : lookupRC c ik = some vs) : (ik, vs) ∈ c := by
  induction c with
  | nil => simp [lookupRC] at h
  | cons p rest ih =>
    rw [lookupRC_cons] at h
    by_cases hq : p.1 = ik
    · rw [if_pos hq] at h
      have : p = (ik, vs) := by
        rcases p with ⟨pk, pv⟩
        simp at hq
        simp at h
        simp [hq, h]
      exact this ▸ List.mem_cons_self _ _
    · rw [if_neg hq] at h
      exact List.mem_cons_of_mem _ (ih h)

theorem lookupRC_none_keys (c : List ((Index × Key) × List Val)) (ik : Index × Key)
    (h : lookupRC c ik = none) : ∀ p ∈ c, p.1 ≠ ik := by
  induction c with
  | nil => simp
  | cons p rest ih =>
    rw [lookupRC_cons] at h
    by_cases hq : p.1 = ik
    · rw [if_pos hq] at h
      exact Option.noConfusion h
    · rw [if_neg hq] at h
      intro q hq2
      rcases List.mem_cons.1 hq2 with h2 | h2
      · exact h2 ▸ hq
      · exact ih h q h2

end RtcLemmas

/-- The values every reader of a stack sees are exactly the visible store of
the abstract backend state the stack represents. -/
theorem valsOf_eq_abs (d : StackDesc) : ∀ s : StackState d, Inv d s →
    valsOf d s = (absOf d s).cur := by
  induction d with
  | lmdb =>
    intro s _
    rfl
  | dbCache m l ih =>
    intro s hinv
    obtain ⟨hb, ht, hsnap, hlow⟩ := hinv
    have ihl := ih s.lower hlow
    show cacheVals (valsOf l) s = (cacheAbs (absOf l s.lower) s).cur
    funext i k
    rcases htb : s.tbuf with _ | tb <;> simp [cacheVals, cacheAbs, htb, ihl, bufView_nil]
  | readCache l ih =>
    intro s hinv
    obtain ⟨hcoh, htx, htouch, hlow⟩ := hinv
    have ihl := ih s.lower hlow
    show rtcVals (valsOf l) s = (absOf l s.lower).cur
    funext i k
    rcases hl : lookupRC s.cache (i, k) with _ | vs
    · simp [rtcVals, hl, ihl]
    · have := hcoh ((i, k), vs) (mem_of_lookupRC s.cache (i, k) vs hl)
      simp [rtcVals, hl]
      exact this
  | lruCache m l ih =>
    intro s hinv
    obtain ⟨hb, ht, hsnap, hlow⟩ := hinv
    have ihl := ih s.lower hlow
    show cacheVals (valsOf l) s = (cacheAbs (absOf l s.lower) s).cur
    funext i k
    rcases htb : s.tbuf with _ | tb <;> simp [cacheVals, cacheAbs, htb, ihl, bufView_nil]

/-- One-step simulation property of a stack: every action preserves the
structural invariant and commutes with the abstraction to the backend
machine. -/
def StepSim (d : StackDesc) : Prop :=
  ∀ (s : StackState d) (a : Action), Inv d s →
    Inv d (applyA d s a) ∧ absOf d (applyA d s a) = (absOf d s).applyAct a

section SimHelpers

theorem stepSim_list (l : StackDesc) (hsim : StepSim l) (acts : List Action) :
    ∀ σ : StackState l, Inv l σ →
      Inv l (runLower (applyA l) σ acts) ∧
      absOf l (runLower (applyA l) σ acts) = acts.foldl InMemoryDB.applyAct (absOf l σ) := by
  induction acts with
  | nil => intro σ hinv; exact ⟨hinv, rfl⟩
  | cons a rest ih =>
    intro σ hinv
    obtain ⟨h1, h2⟩ := hsim σ a hinv
    obtain ⟨h3, h4⟩ := ih (applyA l σ a) h1
    refine ⟨h3, ?_⟩
    have step : runLower (applyA l) σ (a :: rest) = runLower (applyA l) (applyA l σ a) rest := rfl
    rw [step, h4, h2]
    rfl

theorem replay_lower (l : StackDesc) (hsim : StepSim l) (b : Buf) (hwf : BufWF b)
    (σ : StackState l) (hinv : Inv l σ) (hsnap : (absOf l σ).snap = none) :
    Inv l (runLower (applyA l) σ
      (Action.beginDBTransaction :: bufActions b ++ [Action.commitDBTransaction])) ∧
    absOf l (runLower (applyA l) σ
      (Action.beginDBTransaction :: bufActions b ++ [Action.commitDBTransaction]))
      = ⟨bufView b (absOf l σ).cur, none⟩ := by
  obtain ⟨h1, h2⟩ := stepSim_list l hsim
    (Action.beginDBTransaction :: bufActions b ++ [Action.commitDBTransaction]) σ hinv
  exact ⟨h1, by rw [h2, replayMem b hwf (absOf l σ) hsnap]⟩

theorem flush_step (l : StackDesc) (hsim : StepSim l) (s : DBCacheLayer (StackState l))
    (hb : BufWF s.buf) (ht : ∀ tb, s.tbuf = some tb → BufWF tb)
    (hsnap : (absOf l s.lower).snap = none) (hlow : Inv l s.lower) :
    (BufWF (flushCache (applyA l) s).buf ∧
      (∀ tb, (flushCache (applyA l) s).tbuf = some tb → BufWF tb) ∧
      (absOf l (flushCache (applyA l) s).lower).snap = none ∧
      Inv l (flushCache (applyA l) s).lower) ∧
    cacheAbs (absOf l (flushCache (applyA l) s).lower) (flushCache (applyA l) s)
      = cacheAbs (absOf l s.lower) s := by
  obtain ⟨hinv2, habs2⟩ := replay_lower l hsim s.buf hb s.lower hlow hsnap
  have hlower : (flushCache (applyA l) s).lower = runLower (applyA l) s.lower
      (Action.beginDBTransaction :: bufActions s.buf ++ [Action.commitDBTransaction]) := rfl
  constructor
  · refine ⟨BufWF_nil, ?_, ?_, ?_⟩
    · intro tb htb
      exact ht tb htb
    · rw [hlower, habs2]
    · rw [hlower]
      exact hinv2
  · simp only [cacheAbs, flushCache]
    rw [habs2]
    rcases htb : s.tbuf with _ | tb <;> simp [htb, bufView_nil]

end SimHelpers

theorem ne_pair {ik2 : Index × Key} {i : Index} {k : Key} (h : ik2 ≠ (i, k)) :
    ¬ (ik2.1 = i ∧ ik2.2 = k) := by
  rintro ⟨h1, h2⟩
  apply h
  rw [show ik2 = (ik2.1, ik2.2) from rfl, h1, h2]

theorem BufWF_bufWrite (b : Buf) (i : Index) (k : Key) (v : Val) (hb : BufWF b) :
    BufWF (bufWrite b i k v) := by
  refine BufWF_setBuf b (i, k) _ hb ?_
  intro hdup
  rcases lookupBuf b (i, k) with _ | e
  · exact ⟨[v], by simp [hdup], by simp⟩
  · rcases e with vs | vs
    · exact ⟨[v], by simp [hdup], by simp⟩
    · exact ⟨[v], by simp [hdup], by simp⟩

theorem BufWF_bufErase (b : Buf) (i : Index) (k : Key) (vis : List Val) (hb : BufWF b) :
    BufWF (bufErase b i k vis) := by
  refine BufWF_setBuf b (i, k) _ hb ?_
  intro hdup
  exact ⟨[], by simp [hdup], by simp⟩

theorem BufWF_bufEraseAll (b : Buf) (i : Index) (k : Key) (hb : BufWF b) :
    BufWF (bufEraseAll b i k) := by
  refine BufWF_setBuf b (i, k) _ hb ?_
  intro _
  exact ⟨[], rfl, by simp⟩

theorem BufWF_sublist (b b2 : Buf) (hs : b2.Sublist b) (hb : BufWF b) : BufWF b2 := by
  exact ⟨hb.1.sublist (hs.map Prod.fst), fun p hp hd => hb.2 p (hs.mem hp) hd⟩

section CacheStep

theorem cacheMutate_step (l : StackDesc) (s : DBCacheLayer (StackState l)) (a : Action)
    (hmut : a.isMut = true)
    (hb : BufWF s.buf) (ht : ∀ tb, s.tbuf = some tb → BufWF tb)
    (hsnap : (absOf l s.lower).snap = none) (hlow : Inv l s.lower) :
    (BufWF (cacheMutate (valsOf l) a s).buf ∧
      (∀ tb, (cacheMutate (valsOf l) a s).tbuf = some tb → BufWF tb) ∧
      (absOf l (cacheMutate (valsOf l) a s).lower).snap = none ∧
      Inv l (cacheMutate (valsOf l) a s).lower) ∧
    cacheAbs (absOf l (cacheMutate (valsOf l) a s).lower) (cacheMutate (valsOf l) a s)
      = (cacheAbs (absOf l s.lower) s).applyAct a := by
  have hv : valsOf l s.lower = (absOf l s.lower).cur := valsOf_eq_abs l s.lower hlow
  rcases hq : s.tbuf with _ | tb
  · cases a with
    | write i k v =>
      constructor
      · exact ⟨by simp [cacheMutate, hq, BufWF_bufWrite _ _ _ _ hb],
          by simp [cacheMutate, hq], by simp [cacheMutate, hq, hsnap],
          by simp [cacheMutate, hq, hlow]⟩
      · simp [cacheMutate, hq, cacheAbs, InMemoryDB.applyAct, bufView_nil,
          bufView_bufWrite]
    | erase i k =>
      constructor
      · exact ⟨by simp [cacheMutate, hq, BufWF_bufErase _ _ _ _ hb],
          by simp [cacheMutate, hq], by simp [cacheMutate, hq, hsnap],
          by simp [cacheMutate, hq, hlow]⟩
      · have harg : cacheVals (valsOf l) s i k
            = bufView s.buf (absOf l s.lower).cur i k := by
          simp [cacheVals, hq, hv]
        simp only [cacheMutate, hq, cacheAbs, InMemoryDB.applyAct]
        simp [bufView_nil, harg, bufView_bufErase]
    | eraseAll i k =>
      constructor
      · exact ⟨by simp [cacheMutate, hq, BufWF_bufEraseAll _ _ _ hb],
          by simp [cacheMutate, hq], by simp [cacheMutate, hq, hsnap],
          by simp [cacheMutate, hq, hlow]⟩
      · simp [cacheMutate, hq, cacheAbs, InMemoryDB.applyAct, bufView_nil,
          bufView_bufEraseAll]
    | beginDBTransaction => simp [Action.isMut] at hmut
    | commitDBTransaction => simp [Action.isMut] at hmut
    | abortDBTransaction => simp [Action.isMut] at hmut
    | flush hint => simp [Action.isMut] at hmut
  · have htbwf : BufWF tb := ht tb hq
    cases a with
    | write i k v =>
      constructor
      · exact ⟨by simp [cacheMutate, hq, hb],
          by
            intro tb2 htb2
            simp [cacheMutate, hq] at htb2
            exact htb2 ▸ BufWF_bufWrite _ _ _ _ htbwf,
          by simp [cacheMutate, hq, hsnap], by simp [cacheMutate, hq, hlow]⟩
      · simp [cacheMutate, hq, cacheAbs, InMemoryDB.applyAct, bufView_bufWrite]
    | erase i k =>
      constructor
      · exact ⟨by simp [cacheMutate, hq, hb],
          by
            intro tb2 htb2
            simp [cacheMutate, hq] at htb2
            exact htb2 ▸ BufWF_bufErase _ _ _ _ htbwf,
          by simp [cacheMutate, hq, hsnap], by simp [cacheMutate, hq, hlow]⟩
      · have harg : cacheVals (valsOf l) s i k
            = bufView tb (bufView s.buf (absOf l s.lower).cur) i k := by
          simp [cacheVals, hq, hv]
        simp only [cacheMutate, hq, cacheAbs, InMemoryDB.applyAct]
        simp [harg, bufView_bufErase]
    | eraseAll i k =>
      constructor
      · exact ⟨by simp [cacheMutate, hq, hb],
          by
            intro tb2 htb2
            simp [cacheMutate, hq] at htb2
            exact htb2 ▸ BufWF_bufEraseAll _ _ _ htbwf,
          by simp [cacheMutate, hq, hsnap], by simp [cacheMutate, hq, hlow]⟩
      · simp [cacheMutate, hq, cacheAbs, InMemoryDB.applyAct, bufView_bufEraseAll]
    | beginDBTransaction => simp [Action.isMut] at hmut
    | commitDBTransaction => simp [Action.isMut] at hmut
    | abortDBTransaction => simp [Action.isMut] at hmut
    | flush hint => simp [Action.isMut] at hmut

theorem wtcAuto_step (l : StackDesc) (hsim : StepSim l) (s : DBCacheLayer (StackState l))
    (hb : BufWF s.buf) (ht : ∀ tb, s.tbuf = some tb → BufWF tb)
    (hsnap : (absOf l s.lower).snap = none) (hlow : Inv l s.lower) :
    (BufWF (wtcAuto (applyA l) s).buf ∧
      (∀ tb, (wtcAuto (applyA l) s).tbuf = some tb → BufWF tb) ∧
      (absOf l (wtcAuto (applyA l) s).lower).snap = none ∧
      Inv l (wtcAuto (applyA l) s).lower) ∧
    cacheAbs (absOf l (wtcAuto (applyA l) s).lower) (wtcAuto (applyA l) s)
      = cacheAbs (absOf l s.lower) s := by
  by_cases hg : s.tbuf.isNone ∧ 0 < s.cacheMaxSize ∧ s.cacheMaxSize < bufSize s.buf
  · have step : wtcAuto (applyA l) s = flushCache (applyA l) s := by
      simp [wtcAuto, hg]
    rw [step]
    exact flush_step l hsim s hb ht hsnap hlow
  · have step : wtcAuto (applyA l) s = s := by
      simp only [wtcAuto]
      rw [if_neg hg]
    rw [step]
    exact ⟨⟨hb, ht, hsnap, hlow⟩, rfl⟩

theorem lruEvict_step (l : StackDesc) (hsim : StepSim l) (s : DBCacheLayer (StackState l))
    (hb : BufWF s.buf) (ht : ∀ tb, s.tbuf = some tb → BufWF tb)
    (hsnap : (absOf l s.lower).snap = none) (hlow : Inv l s.lower) :
    (BufWF (lruEvict (applyA l) s).buf ∧
      (∀ tb, (lruEvict (applyA l) s).tbuf = some tb → BufWF tb) ∧
      (absOf l (lruEvict (applyA l) s).lower).snap = none ∧
      Inv l (lruEvict (applyA l) s).lower) ∧
    cacheAbs (absOf l (lruEvict (applyA l) s).lower) (lruEvict (applyA l) s)
      = cacheAbs (absOf l s.lower) s := by
  by_cases hg : s.tbuf.isNone ∧ 0 < s.cacheMaxSize ∧ s.cacheMaxSize < s.buf.length
  · have hwfspill : BufWF (s.buf.drop s.cacheMaxSize) :=
      BufWF_sublist s.buf _ (List.drop_sublist _ _) hb
    have hwfkeep : BufWF (s.buf.take s.cacheMaxSize) :=
      BufWF_sublist s.buf _ (List.take_sublist _ _) hb
    obtain ⟨hinv2, habs2⟩ :=
      replay_lower l hsim (s.buf.drop s.cacheMaxSize) hwfspill s.lower hlow hsnap
    have htbnone : s.tbuf = none := by
      rcases hq : s.tbuf with _ | tb
      · rfl
      · rw [hq] at hg
        simp at hg
    have step : lruEvict (applyA l) s =
        { s with
          buf := s.buf.take s.cacheMaxSize
          lower := runLower (applyA l) s.lower
            (Action.beginDBTransaction :: bufActions (s.buf.drop s.cacheMaxSize)
              ++ [Action.commitDBTransaction]) } := by
      simp [lruEvict, hg]
    rw [step]
    constructor
    · refine ⟨hwfkeep, ?_, ?_, hinv2⟩
      · intro tb2 htb2
        simp [htbnone] at htb2
      · rw [show ({ s with
            buf := s.buf.take s.cacheMaxSize
            lower := runLower (applyA l) s.lower
              (Action.beginDBTransaction :: bufActions (s.buf.drop s.cacheMaxSize)
                ++ [Action.commitDBTransaction]) } : DBCacheLayer (StackState l)).lower
          = runLower (applyA l) s.lower
              (Action.beginDBTransaction :: bufActions (s.buf.drop s.cacheMaxSize)
                ++ [Action.commitDBTransaction]) from rfl, habs2]
    · simp only [cacheAbs]
      simp only [habs2, htbnone]
      have hview : bufView (s.buf.take s.cacheMaxSize)
          (bufView (s.buf.drop s.cacheMaxSize) (absOf l s.lower).cur)
          = bufView s.buf (absOf l s.lower).cur := by
        rw [bufView_append_disjoint _ _ _ (by
          rw [List.take_append_drop]
          exact hb.1), List.take_append_drop]
      simp [bufView_nil, hview]
  · have step : lruEvict (applyA l) s = s := by
      simp only [lruEvict]
      rw [if_neg hg]
    rw [step]
    exact ⟨⟨hb, ht, hsnap, hlow⟩, rfl⟩

end CacheStep

section RtcStep

theorem mem_setRC (c : List ((Index × Key) × List Val)) (ik : Index × Key) (vs : List Val)
    (p : (Index × Key) × List Val) (hp : p ∈ setRC c ik vs) :
    p = (ik, vs) ∨ (p ∈ c ∧ p.1 ≠ ik) := by
  rcases List.mem_cons.1 hp with h | h
  · exact Or.inl h
  · exact Or.inr ⟨List.mem_of_mem_filter h, by simpa using List.of_mem_filter h⟩

theorem rtc_step (l : StackDesc) (hsim : StepSim l) (s : DBReadCacheLayer (StackState l))
    (a : Action)
    (hcoh : ∀ p ∈ s.cache, p.2 = (absOf l s.lower).cur p.1.1 p.1.2)
    (htx : s.inTx = (absOf l s.lower).snap.isSome)
    (htouch : ∀ t, (absOf l s.lower).snap = some t → ∀ ik : Index × Key,
      ik ∉ s.touched → t ik.1 ik.2 = (absOf l s.lower).cur ik.1 ik.2)
    (hlow : Inv l s.lower) :
    ((∀ p ∈ (rtcApply (applyA l) s a).cache,
        p.2 = (absOf l (rtcApply (applyA l) s a).lower).cur p.1.1 p.1.2) ∧
      ((rtcApply (applyA l) s a).inTx
        = (absOf l (rtcApply (applyA l) s a).lower).snap.isSome) ∧
      (∀ t, (absOf l (rtcApply (applyA l) s a).lower).snap = some t → ∀ ik : Index × Key,
        ik ∉ (rtcApply (applyA l) s a).touched →
        t ik.1 ik.2 = (absOf l (rtcApply (applyA l) s a).lower).cur ik.1 ik.2) ∧
      Inv l (rtcApply (applyA l) s a).lower) ∧
    absOf l (rtcApply (applyA l) s a).lower = (absOf l s.lower).applyAct a := by
  obtain ⟨hinvL, habsL⟩ := hsim s.lower a hlow
  cases a with
  | write i k v =>
    have hlower : (rtcApply (applyA l) s (.write i k v)).lower
        = applyA l s.lower (.write i k v) := by
      simp [rtcApply]
    have habs2 : absOf l (rtcApply (applyA l) s (.write i k v)).lower
        = ⟨storeWrite (absOf l s.lower).cur i k v, (absOf l s.lower).snap⟩ := by
      rw [hlower, habsL]
      rfl
    have hcur2 : (absOf l (rtcApply (applyA l) s (.write i k v)).lower).cur
        = storeWrite (absOf l s.lower).cur i k v := by
      rw [habs2]
    have hsnap2 : (absOf l (rtcApply (applyA l) s (.write i k v)).lower).snap
        = (absOf l s.lower).snap := by
      rw [habs2]
    refine ⟨⟨?_, ?_, ?_, by rw [hlower]; exact hinvL⟩, by rw [hlower]; exact habsL⟩
    · intro p hp
      rw [hcur2]
      have hcache : (rtcApply (applyA l) s (.write i k v)).cache
          = match lookupRC s.cache (i, k) with
            | some vs =>
              setRC s.cache (i, k) (if DuplicateKeysAllowed i then vs ++ [v] else [v])
            | none =>
              if DuplicateKeysAllowed i then s.cache else setRC s.cache (i, k) [v] := by
        simp [rtcApply]
      rw [hcache] at hp
      rcases hl : lookupRC s.cache (i, k) with _ | vs0
      · rw [hl] at hp
        by_cases hdup : DuplicateKeysAllowed i
        · rw [if_pos hdup] at hp
          have hne := lookupRC_none_keys s.cache (i, k) hl p hp
          rw [hcoh p hp, storeWrite_ne _ _ _ _ _ _ (ne_pair hne)]
        · rw [if_neg hdup] at hp
          rcases mem_setRC _ _ _ _ hp with h | ⟨hmem, hne⟩
          · subst h
            rw [storeWrite_self]
            simp [hdup]
          · rw [hcoh p hmem, storeWrite_ne _ _ _ _ _ _ (ne_pair hne)]
      · rw [hl] at hp
        rcases mem_setRC _ _ _ _ hp with h | ⟨hmem, hne⟩
        · subst h
          rw [storeWrite_self]
          have := hcoh ((i, k), vs0) (mem_of_lookupRC s.cache (i, k) vs0 hl)
          simp at this
          by_cases hdup : DuplicateKeysAllowed i <;> simp [hdup, this]
        · rw [hcoh p hmem, storeWrite_ne _ _ _ _ _ _ (ne_pair hne)]
    · rw [hsnap2]
      have : (rtcApply (applyA l) s (.write i k v)).inTx = s.inTx := by
        simp [rtcApply]
      rw [this]
      exact htx
    · intro t ht2 ik hik
      rw [hsnap2] at ht2
      rw [hcur2]
      have htouched : (rtcApply (applyA l) s (.write i k v)).touched
          = if s.inTx then (i, k) :: s.touched else s.touched := by
        simp [rtcApply]
      rw [htouched] at hik
      cases hin : s.inTx with
      | true =>
        rw [hin, if_pos rfl] at hik
        have hne3 : ik ≠ (i, k) := by
          intro hq
          exact hik (hq ▸ List.mem_cons_self _ _)
        have hnt3 : ik ∉ s.touched := fun hq => hik (List.mem_cons_of_mem _ hq)
        rw [storeWrite_ne _ _ _ _ _ _ (ne_pair hne3)]
        exact htouch t ht2 ik hnt3
      | false =>
        rw [hin] at htx
        have : (absOf l s.lower).snap = none := by
          rcases hq : (absOf l s.lower).snap with _ | t0
          · rfl
          · rw [hq] at htx
            simp at htx
        rw [this] at ht2
        exact Option.noConfusion ht2
  | erase i k =>
    have hlower : (rtcApply (applyA l) s (.erase i k)).lower
        = applyA l s.lower (.erase i k) := by
      simp [rtcApply]
    have habs2 : absOf l (rtcApply (applyA l) s (.erase i k)).lower
        = ⟨storeErase (absOf l s.lower).cur i k, (absOf l s.lower).snap⟩ := by
      rw [hlower, habsL]
      rfl
    have hcur2 : (absOf l (rtcApply (applyA l) s (.erase i k)).lower).cur
        = storeErase (absOf l s.lower).cur i k := by
      rw [habs2]
    have hsnap2 : (absOf l (rtcApply (applyA l) s (.erase i k)).lower).snap
        = (absOf l s.lower).snap := by
      rw [habs2]
    refine ⟨⟨?_, ?_, ?_, by rw [hlower]; exact hinvL⟩, by rw [hlower]; exact habsL⟩
    · intro p hp
      rw [hcur2]
      have hcache : (rtcApply (applyA l) s (.erase i k)).cache
          = if DuplicateKeysAllowed i then
              match lookupRC s.cache (i, k) with
              | some vs => setRC s.cache (i, k) vs.tail
              | none => s.cache
            else setRC s.cache (i, k) [] := by
        simp [rtcApply]
      rw [hcache] at hp
      by_cases hdup : DuplicateKeysAllowed i
      · rw [if_pos hdup] at hp
        rcases hl : lookupRC s.cache (i, k) with _ | vs0
        · rw [hl] at hp
          have hne := lookupRC_none_keys s.cache (i, k) hl p hp
          rw [hcoh p hp, storeErase_ne _ _ _ _ _ (ne_pair hne)]
        · rw [hl] at hp
          rcases mem_setRC _ _ _ _ hp with h | ⟨hmem, hne⟩
          · subst h
            rw [storeErase_self]
            have := hcoh ((i, k), vs0) (mem_of_lookupRC s.cache (i, k) vs0 hl)
            simp at this
            simp [hdup, this]
          · rw [hcoh p hmem, storeErase_ne _ _ _ _ _ (ne_pair hne)]
      · rw [if_neg hdup] at hp
        rcases mem_setRC _ _ _ _ hp with h | ⟨hmem, hne⟩
        · subst h
          rw [storeErase_self]
          simp [hdup]
        · rw [hcoh p hmem, storeErase_ne _ _ _ _ _ (ne_pair hne)]
    · rw [hsnap2]
      have : (rtcApply (applyA l) s (.erase i k)).inTx = s.inTx := by
        simp [rtcApply]
      rw [this]
      exact htx
    · intro t ht2 ik hik
      rw [hsnap2] at ht2
      rw [hcur2]
      have htouched : (rtcApply (applyA l) s (.erase i k)).touched
          = if s.inTx then (i, k) :: s.touched else s.touched := by
        simp [rtcApply]
      rw [htouched] at hik
      cases hin : s.inTx with
      | true =>
        rw [hin, if_pos rfl] at hik
        have hne3 : ik ≠ (i, k) := by
          intro hq
          exact hik (hq ▸ List.mem_cons_self _ _)
        have hnt3 : ik ∉ s.touched := fun hq => hik (List.mem_cons_of_mem _ hq)
        rw [storeErase_ne _ _ _ _ _ (ne_pair hne3)]
        exact htouch t ht2 ik hnt3
      | false =>
        rw [hin] at htx
        have : (absOf l s.lower).snap = none := by
          rcases hq : (absOf l s.lower).snap with _ | t0
          · rfl
          · rw [hq] at htx
            simp at htx
        rw [this] at ht2
        exact Option.noConfusion ht2
  | eraseAll i k =>
    have hlower : (rtcApply (applyA l) s (.eraseAll i k)).lower
        = applyA l s.lower (.eraseAll i k) := by
      simp [rtcApply]
    have habs2 : absOf l (rtcApply (applyA l) s (.eraseAll i k)).lower
        = ⟨storeEraseAll (absOf l s.lower).cur i k, (absOf l s.lower).snap⟩ := by
      rw [hlower, habsL]
      rfl
    have hcur2 : (absOf l (rtcApply (applyA l) s (.eraseAll i k)).lower).cur
        = storeEraseAll (absOf l s.lower).cur i k := by
      rw [habs2]
    have hsnap2 : (absOf l (rtcApply (applyA l) s (.eraseAll i k)).lower).snap
        = (absOf l s.lower).snap := by
      rw [habs2]
    refine ⟨⟨?_, ?_, ?_, by rw [hlower]; exact hinvL⟩, by rw [hlower]; exact habsL⟩
    · intro p hp
      rw [hcur2]
      have hcache : (rtcApply (applyA l) s (.eraseAll i k)).cache
          = setRC s.cache (i, k) [] := by
        simp [rtcApply]
      rw [hcache] at hp
      rcases mem_setRC _ _ _ _ hp with h | ⟨hmem, hne⟩
      · subst h
        rw [storeEraseAll_self]
      · rw [hcoh p hmem, storeEraseAll_ne _ _ _ _ _ (ne_pair hne)]
    · rw [hsnap2]
      have : (rtcApply (applyA l) s (.eraseAll i k)).inTx = s.inTx := by
        simp [rtcApply]
      rw [this]
      exact htx
    · intro t ht2 ik hik
      rw [hsnap2] at ht2
      rw [hcur2]
      have htouched : (rtcApply (applyA l) s (.eraseAll i k)).touched
          = if s.inTx then (i, k) :: s.touched else s.touched := by
        simp [rtcApply]
      rw [htouched] at hik
      cases hin : s.inTx with
      | true =>
        rw [hin, if_pos rfl] at hik
        have hne3 : ik ≠ (i, k) := by
          intro hq
          exact hik (hq ▸ List.mem_cons_self _ _)
        have hnt3 : ik ∉ s.touched := fun hq => hik (List.mem_cons_of_mem _ hq)
        rw [storeEraseAll_ne _ _ _ _ _ (ne_pair hne3)]
        exact htouch t ht2 ik hnt3
      | false =>
        rw [hin] at htx
        have : (absOf l s.lower).snap = none := by
          rcases hq : (absOf l s.lower).snap with _ | t0
          · rfl
          · rw [hq] at htx
            simp at htx
        rw [this] at ht2
        exact Option.noConfusion ht2
  | beginDBTransaction =>
    have hlower : (rtcApply (applyA l) s .beginDBTransaction).lower
        = applyA l s.lower .beginDBTransaction := by
      simp [rtcApply]
    refine ⟨⟨?_, ?_, ?_, by rw [hlower]; exact hinvL⟩, by rw [hlower]; exact habsL⟩
    all_goals rcases hsn : (absOf l s.lower).snap with _ | t0
    · intro p hp
      have hcache : (rtcApply (applyA l) s .beginDBTransaction).cache = s.cache := by
        simp [rtcApply]
      rw [hcache] at hp
      rw [hlower, habsL, show (absOf l s.lower).applyAct .beginDBTransaction
          = { absOf l s.lower with snap := some (absOf l s.lower).cur } by
        simp [InMemoryDB.applyAct, hsn]]
      exact hcoh p hp
    · intro p hp
      have hcache : (rtcApply (applyA l) s .beginDBTransaction).cache = s.cache := by
        simp [rtcApply]
      rw [hcache] at hp
      rw [hlower, habsL, show (absOf l s.lower).applyAct .beginDBTransaction
          = absOf l s.lower by simp [InMemoryDB.applyAct, hsn]]
      exact hcoh p hp
    · have hintx : (rtcApply (applyA l) s .beginDBTransaction).inTx = true := by
        simp [rtcApply]
      rw [hintx, hlower, habsL, show (absOf l s.lower).applyAct .beginDBTransaction
          = { absOf l s.lower with snap := some (absOf l s.lower).cur } by
        simp [InMemoryDB.applyAct, hsn]]
      rfl
    · have hintx : (rtcApply (applyA l) s .beginDBTransaction).inTx = true := by
        simp [rtcApply]
      rw [hintx, hlower, habsL, show (absOf l s.lower).applyAct .beginDBTransaction
          = absOf l s.lower by simp [InMemoryDB.applyAct, hsn]]
      rw [hsn]
      rfl
    · intro t ht2 ik hik
      rw [hlower, habsL, show (absOf l s.lower).applyAct .beginDBTransaction
          = { absOf l s.lower with snap := some (absOf l s.lower).cur } by
        simp [InMemoryDB.applyAct, hsn]] at ht2 ⊢
      simp only at ht2 ⊢
      injection ht2 with ht3
      rw [← ht3]
    · intro t ht2 ik hik
      rw [hlower, habsL, show (absOf l s.lower).applyAct .beginDBTransaction
          = absOf l s.lower by simp [InMemoryDB.applyAct, hsn]] at ht2 ⊢
      have hin : s.inTx = true := by
        rw [htx, hsn]
        rfl
      have htouched : (rtcApply (applyA l) s .beginDBTransaction).touched = s.touched := by
        simp [rtcApply, hin]
      rw [htouched] at hik
      exact htouch t ht2 ik hik
  | commitDBTransaction =>
    have hlower : (rtcApply (applyA l) s .commitDBTransaction).lower
        = applyA l s.lower .commitDBTransaction := by
      simp [rtcApply]
    have habs2 : absOf l (rtcApply (applyA l) s .commitDBTransaction).lower
        = { absOf l s.lower with snap := none } := by
      rw [hlower, habsL]
      rfl
    refine ⟨⟨?_, ?_, ?_, by rw [hlower]; exact hinvL⟩, by rw [hlower]; exact habsL⟩
    · intro p hp
      have hcache : (rtcApply (applyA l) s .commitDBTransaction).cache = s.cache := by
        simp [rtcApply]
      rw [hcache] at hp
      rw [habs2]
      exact hcoh p hp
    · have hintx : (rtcApply (applyA l) s .commitDBTransaction).inTx = false := by
        simp [rtcApply]
      rw [hintx, habs2]
      rfl
    · intro t ht2 ik hik
      rw [habs2] at ht2
      exact Option.noConfusion ht2
  | abortDBTransaction =>
    have hlower : (rtcApply (applyA l) s .abortDBTransaction).lower
        = applyA l s.lower .abortDBTransaction := by
      simp [rtcApply]
    have habs2 : absOf l (rtcApply (applyA l) s .abortDBTransaction).lower
        = ⟨(absOf l s.lower).snap.getD (absOf l s.lower).cur, none⟩ := by
      rw [hlower, habsL]
      rfl
    refine ⟨⟨?_, ?_, ?_, by rw [hlower]; exact hinvL⟩, by rw [hlower]; exact habsL⟩
    · intro p hp
      have hcache : (rtcApply (applyA l) s .abortDBTransaction).cache
          = s.cache.filter fun p => p.1 ∉ s.touched := by
        simp [rtcApply]
      rw [hcache] at hp
      have hmem : p ∈ s.cache := List.mem_of_mem_filter hp
      have hnt : p.1 ∉ s.touched := by simpa using List.of_mem_filter hp
      rw [habs2]
      simp only
      rcases hsn : (absOf l s.lower).snap with _ | t0
      · simp only [Option.getD_none]
        exact hcoh p hmem
      · simp only [Option.getD_some]
        rw [htouch t0 hsn p.1 hnt]
        exact hcoh p hmem
    · have hintx : (rtcApply (applyA l) s .abortDBTransaction).inTx = false := by
        simp [rtcApply]
      rw [hintx, habs2]
      rfl
    · intro t ht2 ik hik
      rw [habs2] at ht2
      exact Option.noConfusion ht2
  | flush hint =>
    have hlower : (rtcApply (applyA l) s (.flush hint)).lower
        = applyA l s.lower (.flush hint) := by
      simp [rtcApply]
    have habs2 : absOf l (rtcApply (applyA l) s (.flush hint)).lower
        = absOf l s.lower := by
      rw [hlower, habsL]
      rfl
    refine ⟨⟨?_, ?_, ?_, by rw [hlower]; exact hinvL⟩, by rw [hlower]; exact habsL⟩
    · intro p hp
      have hcache : (rtcApply (applyA l) s (.flush hint)).cache = s.cache := by
        simp [rtcApply]
      rw [hcache] at hp
      rw [habs2]
      exact hcoh p hp
    · have hintx : (rtcApply (applyA l) s (.flush hint)).inTx = s.inTx := by
        simp [rtcApply]
      rw [hintx, habs2]
      exact htx
    · intro t ht2 ik hik
      rw [habs2] at ht2 ⊢
      have htouched : (rtcApply (applyA l) s (.flush hint)).touched = s.touched := by
        simp [rtcApply]
      rw [htouched] at hik
      exact htouch t ht2 ik hik

end RtcStep

/-- Every stack satisfies the one-step simulation property: each action
preserves the structural invariant and commutes with the abstraction to the
backend machine. -/
theorem stepSim_all : ∀ d : StackDesc, StepSim d := by
  intro d
  induction d with
  | lmdb =>
    intro s a _
    exact ⟨trivial, rfl⟩
  | dbCache m l ih =>
    intro s a hinv
    obtain ⟨hb, ht, hsnap, hlow⟩ := hinv
    cases a with
    | write i k v =>
      obtain ⟨⟨p1, p2, p3, p4⟩, habs1⟩ :=
        cacheMutate_step l s (.write i k v) rfl hb ht hsnap hlow
      obtain ⟨hinv2, habs2⟩ :=
        wtcAuto_step l ih (cacheMutate (valsOf l) (.write i k v) s) p1 p2 p3 p4
      exact ⟨hinv2, habs2.trans habs1⟩
    | erase i k =>
      obtain ⟨⟨p1, p2, p3, p4⟩, habs1⟩ :=
        cacheMutate_step l s (.erase i k) rfl hb ht hsnap hlow
      obtain ⟨hinv2, habs2⟩ :=
        wtcAuto_step l ih (cacheMutate (valsOf l) (.erase i k) s) p1 p2 p3 p4
      exact ⟨hinv2, habs2.trans habs1⟩
    | eraseAll i k =>
      obtain ⟨⟨p1, p2, p3, p4⟩, habs1⟩ :=
        cacheMutate_step l s (.eraseAll i k) rfl hb ht hsnap hlow
      obtain ⟨hinv2, habs2⟩ :=
        wtcAuto_step l ih (cacheMutate (valsOf l) (.eraseAll i k) s) p1 p2 p3 p4
      exact ⟨hinv2, habs2.trans habs1⟩
    | beginDBTransaction =>
      rcases hq : s.tbuf with _ | tb
      · have step : applyA (.dbCache m l) s .beginDBTransaction
            = { s with tbuf := some [] } := by
          show wtcApply (valsOf l) (applyA l) s .beginDBTransaction = _
          simp [wtcApply, hq]
        rw [step]
        constructor
        · refine ⟨hb, ?_, hsnap, hlow⟩
          intro tb2 h2
          injection h2 with h3
          exact h3 ▸ BufWF_nil
        · show cacheAbs (absOf l s.lower) { s with tbuf := some [] }
            = (cacheAbs (absOf l s.lower) s).applyAct .beginDBTransaction
          simp [cacheAbs, hq, InMemoryDB.applyAct, bufView_nil]
      · have step : applyA (.dbCache m l) s .beginDBTransaction = s := by
          show wtcApply (valsOf l) (applyA l) s .beginDBTransaction = _
          simp [wtcApply, hq]
        rw [step]
        refine ⟨⟨hb, ht, hsnap, hlow⟩, ?_⟩
        show cacheAbs (absOf l s.lower) s
          = (cacheAbs (absOf l s.lower) s).applyAct .beginDBTransaction
        simp [cacheAbs, hq, InMemoryDB.applyAct]
    | commitDBTransaction =>
      rcases hq : s.tbuf with _ | tb
      · have step : applyA (.dbCache m l) s .commitDBTransaction = s := by
          show wtcApply (valsOf l) (applyA l) s .commitDBTransaction = _
          simp [wtcApply, hq]
        rw [step]
        refine ⟨⟨hb, ht, hsnap, hlow⟩, ?_⟩
        show cacheAbs (absOf l s.lower) s
          = (cacheAbs (absOf l s.lower) s).applyAct .commitDBTransaction
        simp [cacheAbs, hq, InMemoryDB.applyAct]
      · have step : applyA (.dbCache m l) s .commitDBTransaction
            = { s with tbuf := none, buf := mergeBuf s.buf tb } := by
          show wtcApply (valsOf l) (applyA l) s .commitDBTransaction = _
          simp [wtcApply, hq]
        rw [step]
        constructor
        · refine ⟨BufWF_mergeBuf tb s.buf hb (ht tb hq), ?_, hsnap, hlow⟩
          intro tb2 h2
          exact Option.noConfusion h2
        · show cacheAbs (absOf l s.lower) { s with tbuf := none, buf := mergeBuf s.buf tb }
            = (cacheAbs (absOf l s.lower) s).applyAct .commitDBTransaction
          simp [cacheAbs, hq, InMemoryDB.applyAct, bufView_nil,
            bufView_mergeBuf tb s.buf _ (ht tb hq).1]
    | abortDBTransaction =>
      have step : applyA (.dbCache m l) s .abortDBTransaction
          = { s with tbuf := none } := by
        show wtcApply (valsOf l) (applyA l) s .abortDBTransaction = _
        simp [wtcApply]
      rw [step]
      constructor
      · refine ⟨hb, ?_, hsnap, hlow⟩
        intro tb2 h2
        exact Option.noConfusion h2
      · show cacheAbs (absOf l s.lower) { s with tbuf := none }
          = (cacheAbs (absOf l s.lower) s).applyAct .abortDBTransaction
        rcases hq : s.tbuf with _ | tb <;>
          simp [cacheAbs, hq, InMemoryDB.applyAct, bufView_nil]
    | flush hint =>
      have step : applyA (.dbCache m l) s (.flush hint) = flushCache (applyA l) s := by
        show wtcApply (valsOf l) (applyA l) s (.flush hint) = _
        simp [wtcApply]
      rw [step]
      obtain ⟨hinv2, habs2⟩ := flush_step l ih s hb ht hsnap hlow
      exact ⟨hinv2, habs2⟩
  | readCache l ih =>
    intro s a hinv
    obtain ⟨hcoh, htx, htouch, hlow⟩ := hinv
    obtain ⟨hinv2, habs2⟩ := rtc_step l ih s a hcoh htx htouch hlow
    exact ⟨hinv2, habs2⟩
  | lruCache m l ih =>
    intro s a hinv
    obtain ⟨hb, ht, hsnap, hlow⟩ := hinv
    cases a with
    | write i k v =>
      obtain ⟨⟨p1, p2, p3, p4⟩, habs1⟩ :=
        cacheMutate_step l s (.write i k v) rfl hb ht hsnap hlow
      obtain ⟨hinv2, habs2⟩ :=
        lruEvict_step l ih (cacheMutate (valsOf l) (.write i k v) s) p1 p2 p3 p4
      exact ⟨hinv2, habs2.trans habs1⟩
    | erase i k =>
      obtain ⟨⟨p1, p2, p3, p4⟩, habs1⟩ :=
        cacheMutate_step l s (.erase i k) rfl hb ht hsnap hlow
      obtain ⟨hinv2, habs2⟩ :=
        lruEvict_step l ih (cacheMutate (valsOf l) (.erase i k) s) p1 p2 p3 p4
      exact ⟨hinv2, habs2.trans habs1⟩
    | eraseAll i k =>
      obtain ⟨⟨p1, p2, p3, p4⟩, habs1⟩ :=
        cacheMutate_step l s (.eraseAll i k) rfl hb ht hsnap hlow
      obtain ⟨hinv2, habs2⟩ :=
        lruEvict_step l ih (cacheMutate (valsOf l) (.eraseAll i k) s) p1 p2 p3 p4
      exact ⟨hinv2, habs2.trans habs1⟩
    | beginDBTransaction =>
      rcases hq : s.tbuf with _ | tb
      · have step : applyA (.lruCache m l) s .beginDBTransaction
            = { s with tbuf := some [] } := by
          show lruApply (valsOf l) (applyA l) s .beginDBTransaction = _
          simp [lruApply, hq]
        rw [step]
        constructor
        · refine ⟨hb, ?_, hsnap, hlow⟩
          intro tb2 h2
          injection h2 with h3
          exact h3 ▸ BufWF_nil
        · show cacheAbs (absOf l s.lower) { s with tbuf := some [] }
            = (cacheAbs (absOf l s.lower) s).applyAct .beginDBTransaction
          simp [cacheAbs, hq, InMemoryDB.applyAct, bufView_nil]
      · have step : applyA (.lruCache m l) s .beginDBTransaction = s := by
          show lruApply (valsOf l) (applyA l) s .beginDBTransaction = _
          simp [lruApply, hq]
        rw [step]
        refine ⟨⟨hb, ht, hsnap, hlow⟩, ?_⟩
        show cacheAbs (absOf l s.lower) s
          = (cacheAbs (absOf l s.lower) s).applyAct .beginDBTransaction
        simp [cacheAbs, hq, InMemoryDB.applyAct]
    | commitDBTransaction =>
      rcases hq : s.tbuf with _ | tb
      · have step : applyA (.lruCache m l) s .commitDBTransaction = s := by
          show lruApply (valsOf l) (applyA l) s .commitDBTransaction = _
          simp [lruApply, hq]
        rw [step]
        refine ⟨⟨hb, ht, hsnap, hlow⟩, ?_⟩
        show cacheAbs (absOf l s.lower) s
          = (cacheAbs (absOf l s.lower) s).applyAct .commitDBTransaction
        simp [cacheAbs, hq, InMemoryDB.applyAct]
      · have step : applyA (.lruCache m l) s .commitDBTransaction
            = { s with tbuf := none, buf := mergeBuf s.buf tb } := by
          show lruApply (valsOf l) (applyA l) s .commitDBTransaction = _
          simp [lruApply, hq]
        rw [step]
        constructor
        · refine ⟨BufWF_mergeBuf tb s.buf hb (ht tb hq), ?_, hsnap, hlow⟩
          intro tb2 h2
          exact Option.noConfusion h2
        · show cacheAbs (absOf l s.lower) { s with tbuf := none, buf := mergeBuf s.buf tb }
            = (cacheAbs (absOf l s.lower) s).applyAct .commitDBTransaction
          simp [cacheAbs, hq, InMemoryDB.applyAct, bufView_nil,
            bufView_mergeBuf tb s.buf _ (ht tb hq).1]
    | abortDBTransaction =>
      have step : applyA (.lruCache m l) s .abortDBTransaction
          = { s with tbuf := none } := by
        show lruApply (valsOf l) (applyA l) s .abortDBTransaction = _
        simp [lruApply]
      rw [step]
      constructor
      · refine ⟨hb, ?_, hsnap, hlow⟩
        intro tb2 h2
        exact Option.noConfusion h2
      · show cacheAbs (absOf l s.lower) { s with tbuf := none }
          = (cacheAbs (absOf l s.lower) s).applyAct .abortDBTransaction
        rcases hq : s.tbuf with _ | tb <;>
          simp [cacheAbs, hq, InMemoryDB.applyAct, bufView_nil]
    | flush hint =>
      have step : applyA (.lruCache m l) s (.flush hint) = flushCache (applyA l) s := by
        show lruApply (valsOf l) (applyA l) s (.flush hint) = _
        simp [lruApply]
      rw [step]
      obtain ⟨hinv2, habs2⟩ := flush_step l ih s hb ht hsnap hlow
      exact ⟨hinv2, habs2⟩

section RunLemmas

theorem Inv_init (d : StackDesc) :
    Inv d (initState d) ∧ absOf d (initState d) = initMem := by
  induction d with
  | lmdb => exact ⟨trivial, rfl⟩
  | dbCache m l ih =>
    refine ⟨⟨BufWF_nil, ?_, ?_, ih.1⟩, ?_⟩
    · intro tb htb
      exact Option.noConfusion htb
    · rw [show (initState (.dbCache m l)).lower = initState l from rfl, ih.2]
      rfl
    · show cacheAbs (absOf l (initState l)) (initState (.dbCache m l)) = initMem
      simp [cacheAbs, ih.2, initState, bufView_nil, initMem]
  | readCache l ih =>
    refine ⟨⟨?_, ?_, ?_, ih.1⟩, ?_⟩
    · intro p hp
      simp [initState] at hp
    · rw [show (initState (.readCache l)).lower = initState l from rfl, ih.2]
      rfl
    · intro t ht2 ik hik
      rw [show (initState (.readCache l)).lower = initState l from rfl, ih.2] at ht2
      exact Option.noConfusion ht2
    · show absOf l (initState (.readCache l)).lower = initMem
      exact ih.2
  | lruCache m l ih =>
    refine ⟨⟨BufWF_nil, ?_, ?_, ih.1⟩, ?_⟩
    · intro tb htb
      exact Option.noConfusion htb
    · rw [show (initState (.lruCache m l)).lower = initState l from rfl, ih.2]
      rfl
    · show cacheAbs (absOf l (initState l)) (initState (.lruCache m l)) = initMem
      simp [cacheAbs, ih.2, initState, bufView_nil, initMem]

/-- A run of any stack is invariant-respecting and abstracts to the same run
of the in-memory backend machine. -/
theorem run_sim (d : StackDesc) (acts : List Action) :
    Inv d (runStack d acts) ∧ absOf d (runStack d acts) = runMem acts := by
  obtain ⟨hinv0, habs0⟩ := Inv_init d
  obtain ⟨h1, h2⟩ := stepSim_list d (stepSim_all d) acts (initState d) hinv0
  refine ⟨h1, ?_⟩
  rw [show runStack d acts = runLower (applyA d) (initState d) acts from rfl, h2, habs0]
  rfl

/-- The values any stack shows after a run equal the visible store of the
in-memory backend after the same run. -/
theorem runStack_vals (d : StackDesc) (acts : List Action) :
    valsOf d (runStack d acts) = (runMem acts).cur := by
  obtain ⟨h1, h2⟩ := run_sim d acts
  rw [valsOf_eq_abs d _ h1, h2]

theorem runStack_append (d : StackDesc) (acts1 acts2 : List Action) :
    runStack d (acts1 ++ acts2) = applyActs d (runStack d acts1) acts2 := by
  simp [runStack, applyActs, List.foldl_append]

theorem runStack_snoc (d : StackDesc) (acts : List Action) (a : Action) :
    runStack d (acts ++ [a]) = applyA d (runStack d acts) a := by
  rw [runStack_append]
  rfl

theorem runMem_append (acts1 acts2 : List Action) :
    runMem (acts1 ++ acts2) = acts2.foldl InMemoryDB.applyAct (runMem acts1) := by
  simp [runMem, List.foldl_append]

theorem applyA_vals (d : StackDesc) (acts : List Action) (a : Action) :
    valsOf d (applyA d (runStack d acts) a) = ((runMem acts).applyAct a).cur := by
  have := runStack_vals d (acts ++ [a])
  rw [runStack_snoc, runMem_append] at this
  exact this

end RunLemmas

section MemFacts

/-- The visible store of a reachable backend state keeps at most one value
per key on the single-valued indexes. -/
def StoreWF (st : Store) : Prop :=
  ∀ i k, DuplicateKeysAllowed i = false → (st i k).length ≤ 1

def MemWF (s : InMemoryDB) : Prop :=
  StoreWF s.cur ∧ ∀ t, s.snap = some t → StoreWF t

theorem StoreWF_applyStore (st : Store) (a : Action) (h : StoreWF st) :
    StoreWF (applyStore st a) := by
  cases a with
  | write i k v =>
    intro j k2 hd
    show (storeWrite st i k v j k2).length ≤ 1
    by_cases hc : j = i ∧ k2 = k
    · obtain ⟨h1, h2⟩ := hc
      subst h1
      subst h2
      rw [storeWrite_self, if_neg (by rw [hd]; exact Bool.noConfusion)]
      rfl
    · rw [storeWrite_ne st i k v j k2 hc]
      exact h j k2 hd
  | erase i k =>
    intro j k2 hd
    show (storeErase st i k j k2).length ≤ 1
    by_cases hc : j = i ∧ k2 = k
    · obtain ⟨h1, h2⟩ := hc
      subst h1
      subst h2
      rw [storeErase_self, hd]
      simp
    · rw [storeErase_ne st i k j k2 hc]
      exact h j k2 hd
  | eraseAll i k =>
    intro j k2 hd
    show (storeEraseAll st i k j k2).length ≤ 1
    by_cases hc : j = i ∧ k2 = k
    · obtain ⟨h1, h2⟩ := hc
      subst h1
      subst h2
      rw [storeEraseAll_self]
      simp
    · rw [storeEraseAll_ne st i k j k2 hc]
      exact h j k2 hd
  | beginDBTransaction => exact h
  | commitDBTransaction => exact h
  | abortDBTransaction => exact h
  | flush hint => exact h

theorem MemWF_applyAct (s : InMemoryDB) (a : Action) (h : MemWF s) :
    MemWF (s.applyAct a) := by
  obtain ⟨h1, h2⟩ := h
  cases a with
  | write i k v => exact ⟨StoreWF_applyStore s.cur (.write i k v) h1, h2⟩
  | erase i k => exact ⟨StoreWF_applyStore s.cur (.erase i k) h1, h2⟩
  | eraseAll i k => exact ⟨StoreWF_applyStore s.cur (.eraseAll i k) h1, h2⟩
  | beginDBTransaction =>
    show MemWF (if s.snap.isSome then s else { s with snap := some s.cur })
    rcases hq : s.snap with _ | t
    · simp only [hq, Option.isSome_none, Bool.false_eq_true, if_false]
      refine ⟨h1, ?_⟩
      intro t2 ht2
      simp at ht2
      exact ht2 ▸ h1
    · simp only [hq, Option.isSome_some, if_true]
      exact ⟨h1, h2⟩
  | commitDBTransaction =>
    refine ⟨h1, ?_⟩
    intro t ht
    exact Option.noConfusion ht
  | abortDBTransaction =>
    refine ⟨?_, ?_⟩
    · show StoreWF (s.snap.getD s.cur)
      rcases hq : s.snap with _ | t
      · rw [Option.getD_none]
        exact h1
      · rw [Option.getD_some]
        exact h2 t hq
    · intro t ht
      exact Option.noConfusion ht
  | flush hint => exact ⟨h1, h2⟩

theorem MemWF_runMem (acts : List Action) : MemWF (runMem acts) := by
  have base : MemWF initMem := by
    refine ⟨?_, ?_⟩
    · intro i k _
      simp [initMem, emptyStore]
    · intro t ht
      exact Option.noConfusion ht
  rw [runMem]
  induction acts using List.reverseRecOn with
  | nil => exact base
  | append_singleton acts a ih =>
    rw [List.foldl_append]
    exact MemWF_applyAct _ a ih

/-- Abstract transaction-abort fact: begin, any staged mutations, then
abort leaves the visible store exactly as before the begin (when no
transaction was already open). -/
theorem mem_abort_run (s0 : InMemoryDB) (hsn : s0.snap = none) (muts : List Action)
    (hm : ∀ a ∈ muts, a.isMut = true) :
    (Action.beginDBTransaction :: muts ++ [Action.abortDBTransaction]).foldl
      InMemoryDB.applyAct s0 = ⟨s0.cur, none⟩ := by
  have hbegin : s0.applyAct .beginDBTransaction = ⟨s0.cur, some s0.cur⟩ := by
    simp [InMemoryDB.applyAct, hsn]
  have step : (Action.beginDBTransaction :: muts ++ [Action.abortDBTransaction]).foldl
      InMemoryDB.applyAct s0
      = (muts ++ [Action.abortDBTransaction]).foldl InMemoryDB.applyAct
        (s0.applyAct .beginDBTransaction) := rfl
  rw [step, hbegin, List.foldl_append, foldl_applyAct_muts muts hm]
  rfl

end MemFacts

section ClaimHelpers

theorem sliceVal_zero_none (v : Val) : sliceVal v 0 none = v := by
  simp [sliceVal]

theorem sliceVal_some_clamped (v : Val) (offset sz : Nat) :
    sliceVal v offset (some sz)
      = (v.drop (min offset v.length)).take (min sz (v.length - min offset v.length)) := by
  have hbase : sliceVal v offset (some sz) = (v.drop offset).take sz := rfl
  rcases le_or_lt offset v.length with h | h
  · rw [min_eq_left h]
    rcases le_or_lt sz (v.length - offset) with h2 | h2
    · rw [min_eq_left h2, hbase]
    · rw [min_eq_right (le_of_lt h2), hbase]
      have hlen : (v.drop offset).length = v.length - offset := List.length_drop _ _
      rw [List.take_of_length_le (by omega), List.take_of_length_le (by omega)]
  · rw [min_eq_right (le_of_lt h), hbase]
    rw [List.drop_eq_nil_of_le (le_of_lt h), List.drop_length]
    simp

theorem sliceVal_none_clamped (v : Val) (offset : Nat) :
    sliceVal v offset none = v.drop (min offset v.length) := by
  have hbase : sliceVal v offset none = (v.drop offset).take (v.length - offset) := rfl
  rcases le_or_lt offset v.length with h | h
  · rw [min_eq_left h, hbase]
    have hlen : (v.drop offset).length = v.length - offset := List.length_drop _ _
    rw [List.take_of_length_le (by omega)]
  · rw [min_eq_right (le_of_lt h), hbase]
    rw [List.drop_eq_nil_of_le (le_of_lt h), List.drop_length]
    simp

theorem mem_writes_dup (i : Index) (k : Key) (hdup : DuplicateKeysAllowed i = true)
    (vs : List Val) (s : InMemoryDB) :
    ((vs.map (Action.write i k)).foldl InMemoryDB.applyAct s).cur i k = s.cur i k ++ vs := by
  have hmuts : ∀ a ∈ vs.map (Action.write i k), a.isMut = true := by
    intro a ha
    rcases List.mem_map.1 ha with ⟨v, _, hv⟩
    subst hv
    rfl
  rw [foldl_applyAct_muts (vs.map (Action.write i k)) hmuts s]
  show applyStoreList s.cur (vs.map (Action.write i k)) i k = _
  rw [applyStoreList_writes_dup i k hdup]
  simp

theorem cacheMutate_counters {σ : Type} (lv : σ → Store) (a : Action) (s : DBCacheLayer σ) :
    (cacheMutate lv a s).flushCount = s.flushCount
    ∧ (cacheMutate lv a s).cacheMaxSize = s.cacheMaxSize := by
  rcases hq : s.tbuf with _ | tb <;> simp [cacheMutate, hq]

theorem dbCache_noflush (l : StackDesc) (acts : List Action)
    (hnf : ∀ a ∈ acts, a.isFlush = false) :
    (runStack (.dbCache 0 l) acts).flushCount = 0
    ∧ (runStack (.dbCache 0 l) acts).cacheMaxSize = 0 := by
  induction acts using List.reverseRecOn with
  | nil => exact ⟨rfl, rfl⟩
  | append_singleton acts a ih =>
    have hnf2 : ∀ b ∈ acts, b.isFlush = false :=
      fun b hb => hnf b (List.mem_append.2 (Or.inl hb))
    obtain ⟨ih1, ih2⟩ := ih hnf2
    rw [runStack_snoc]
    cases a with
    | write i k v =>
      have hm := cacheMutate_counters (valsOf l) (.write i k v) (runStack (.dbCache 0 l) acts)
      have step : applyA (.dbCache 0 l) (runStack (.dbCache 0 l) acts) (.write i k v)
          = wtcAuto (applyA l)
            (cacheMutate (valsOf l) (.write i k v) (runStack (.dbCache 0 l) acts)) := rfl
      rw [step]
      have hguard : ¬ ((cacheMutate (valsOf l) (.write i k v)
            (runStack (.dbCache 0 l) acts)).tbuf.isNone
          ∧ 0 < (cacheMutate (valsOf l) (.write i k v)
              (runStack (.dbCache 0 l) acts)).cacheMaxSize
          ∧ (cacheMutate (valsOf l) (.write i k v)
              (runStack (.dbCache 0 l) acts)).cacheMaxSize
            < bufSize (cacheMutate (valsOf l) (.write i k v)
              (runStack (.dbCache 0 l) acts)).buf) := by
        rintro ⟨_, hpos, _⟩
        rw [hm.2, ih2] at hpos
        exact absurd hpos (lt_irrefl 0)
      rw [show wtcAuto (applyA l) (cacheMutate (valsOf l) (.write i k v)
            (runStack (.dbCache 0 l) acts))
          = cacheMutate (valsOf l) (.write i k v) (runStack (.dbCache 0 l) acts) from by
        simp only [wtcAuto]
        rw [if_neg hguard]]
      exact ⟨hm.1.trans ih1, hm.2.trans ih2⟩
    | erase i k =>
      have hm := cacheMutate_counters (valsOf l) (.erase i k) (runStack (.dbCache 0 l) acts)
      have step : applyA (.dbCache 0 l) (runStack (.dbCache 0 l) acts) (.erase i k)
          = wtcAuto (applyA l)
            (cacheMutate (valsOf l) (.erase i k) (runStack (.dbCache 0 l) acts)) := rfl
      rw [step]
      have hguard : ¬ ((cacheMutate (valsOf l) (.erase i k)
            (runStack (.dbCache 0 l) acts)).tbuf.isNone
          ∧ 0 < (cacheMutate (valsOf l) (.erase i k)
              (runStack (.dbCache 0 l) acts)).cacheMaxSize
          ∧ (cacheMutate (valsOf l) (.erase i k)
              (runStack (.dbCache 0 l) acts)).cacheMaxSize
            < bufSize (cacheMutate (valsOf l) (.erase i k)
              (runStack (.dbCache 0 l) acts)).buf) := by
        rintro ⟨_, hpos, _⟩
        rw [hm.2, ih2] at hpos
        exact absurd hpos (lt_irrefl 0)
      rw [show wtcAuto (applyA l) (cacheMutate (valsOf l) (.erase i k)
            (runStack (.dbCache 0 l) acts))
          = cacheMutate (valsOf l) (.erase i k) (runStack (.dbCache 0 l) acts) from by
        simp only [wtcAuto]
        rw [if_neg hguard]]
      exact ⟨hm.1.trans ih1, hm.2.trans ih2⟩
    | eraseAll i k =>
      have hm := cacheMutate_counters (valsOf l) (.eraseAll i k) (runStack (.dbCache 0 l) acts)
      have step : applyA (.dbCache 0 l) (runStack (.dbCache 0 l) acts) (.eraseAll i k)
          = wtcAuto (applyA l)
            (cacheMutate (valsOf l) (.eraseAll i k) (runStack (.dbCache 0 l) acts)) := rfl
      rw [step]
      have hguard : ¬ ((cacheMutate (valsOf l) (.eraseAll i k)
            (runStack (.dbCache 0 l) acts)).tbuf.isNone
          ∧ 0 < (cacheMutate (valsOf l) (.eraseAll i k)
              (runStack (.dbCache 0 l) acts)).cacheMaxSize
          ∧ (cacheMutate (valsOf l) (.eraseAll i k)
              (runStack (.dbCache 0 l) acts)).cacheMaxSize
            < bufSize (cacheMutate (valsOf l) (.eraseAll i k)
              (runStack (.dbCache 0 l) acts)).buf) := by
        rintro ⟨_, hpos, _⟩
        rw [hm.2, ih2] at hpos
        exact absurd hpos (lt_irrefl 0)
      rw [show wtcAuto (applyA l) (cacheMutate (valsOf l) (.eraseAll i k)
            (runStack (.dbCache 0 l) acts))
          = cacheMutate (valsOf l) (.eraseAll i k) (runStack (.dbCache 0 l) acts) from by
        simp only [wtcAuto]
        rw [if_neg hguard]]
      exact ⟨hm.1.trans ih1, hm.2.trans ih2⟩
    | beginDBTransaction =>
      rcases hq : (runStack (.dbCache 0 l) acts).tbuf with _ | tb
      · have step : applyA (.dbCache 0 l) (runStack (.dbCache 0 l) acts) .beginDBTransaction
            = { runStack (.dbCache 0 l) acts with tbuf := some [] } := by
          show wtcApply (valsOf l) (applyA l) (runStack (.dbCache 0 l) acts)
            .beginDBTransaction = _
          simp [wtcApply, hq]
        rw [step]
        exact ⟨ih1, ih2⟩
      · have step : applyA (.dbCache 0 l) (runStack (.dbCache 0 l) acts) .beginDBTransaction
            = runStack (.dbCache 0 l) acts := by
          show wtcApply (valsOf l) (applyA l) (runStack (.dbCache 0 l) acts)
            .beginDBTransaction = _
          simp [wtcApply, hq]
        rw [step]
        exact ⟨ih1, ih2⟩
    | commitDBTransaction =>
      rcases hq : (runStack (.dbCache 0 l) acts).tbuf with _ | tb
      · have step : applyA (.dbCache 0 l) (runStack (.dbCache 0 l) acts) .commitDBTransaction
            = runStack (.dbCache 0 l) acts := by
          show wtcApply (valsOf l) (applyA l) (runStack (.dbCache 0 l) acts)
            .commitDBTransaction = _
          simp [wtcApply, hq]
        rw [step]
        exact ⟨ih1, ih2⟩
      · have step : applyA (.dbCache 0 l) (runStack (.dbCache 0 l) acts) .commitDBTransaction
            = { runStack (.dbCache 0 l) acts with tbuf := none, buf := mergeBuf (runStack (.dbCache 0 l) acts).buf tb } := by
          show wtcApply (valsOf l) (applyA l) (runStack (.dbCache 0 l) acts)
            .commitDBTransaction = _
          simp [wtcApply, hq]
        rw [step]
        exact ⟨ih1, ih2⟩
    | abortDBTransaction =>
      have step : applyA (.dbCache 0 l) (runStack (.dbCache 0 l) acts) .abortDBTransaction
          = { runStack (.dbCache 0 l) acts with tbuf := none } := by
        show wtcApply (valsOf l) (applyA l) (runStack (.dbCache 0 l) acts)
          .abortDBTransaction = _
        simp [wtcApply]
      rw [step]
      exact ⟨ih1, ih2⟩
    | flush hint =>
      have := hnf (.flush hint) (List.mem_append.2 (Or.inr (List.mem_cons_self _ _)))
      simp [Action.isFlush] at this

theorem lruCache_noflush (l : StackDesc) (acts : List Action)
    (hnf : ∀ a ∈ acts, a.isFlush = false) :
    (runStack (.lruCache 0 l) acts).flushCount = 0
    ∧ (runStack (.lruCache 0 l) acts).cacheMaxSize = 0 := by
  induction acts using List.reverseRecOn with
  | nil => exact ⟨rfl, rfl⟩
  | append_singleton acts a ih =>
    have hnf2 : ∀ b ∈ acts, b.isFlush = false :=
      fun b hb => hnf b (List.mem_append.2 (Or.inl hb))
    obtain ⟨ih1, ih2⟩ := ih hnf2
    rw [runStack_snoc]
    cases a with
    | write i k v =>
      have hm := cacheMutate_counters (valsOf l) (.write i k v) (runStack (.lruCache 0 l) acts)
      have step : applyA (.lruCache 0 l) (runStack (.lruCache 0 l) acts) (.write i k v)
          = lruEvict (applyA l)
            (cacheMutate (valsOf l) (.write i k v) (runStack (.lruCache 0 l) acts)) := rfl
      rw [step]
      have hguard : ¬ ((cacheMutate (valsOf l) (.write i k v)
            (runStack (.lruCache 0 l) acts)).tbuf.isNone
          ∧ 0 < (cacheMutate (valsOf l) (.write i k v)
              (runStack (.lruCache 0 l) acts)).cacheMaxSize
          ∧ (cacheMutate (valsOf l) (.write i k v)
              (runStack (.lruCache 0 l) acts)).cacheMaxSize
            < (cacheMutate (valsOf l) (.write i k v)
              (runStack (.lruCache 0 l) acts)).buf.length) := by
        rintro ⟨_, hpos, _⟩
        rw [hm.2, ih2] at hpos
        exact absurd hpos (lt_irrefl 0)
      rw [show lruEvict (applyA l) (cacheMutate (valsOf l) (.write i k v)
            (runStack (.lruCache 0 l) acts))
          = cacheMutate (valsOf l) (.write i k v) (runStack (.lruCache 0 l) acts) from by
        simp only [lruEvict]
        rw [if_neg hguard]]
      exact ⟨hm.1.trans ih1, hm.2.trans ih2⟩
    | erase i k =>
      have hm := cacheMutate_counters (valsOf l) (.erase i k) (runStack (.lruCache 0 l) acts)
      have step : applyA (.lruCache 0 l) (runStack (.lruCache 0 l) acts) (.erase i k)
          = lruEvict (applyA l)
            (cacheMutate (valsOf l) (.erase i k) (runStack (.lruCache 0 l) acts)) := rfl
      rw [step]
      have hguard : ¬ ((cacheMutate (valsOf l) (.erase i k)
            (runStack (.lruCache 0 l) acts)).tbuf.isNone
          ∧ 0 < (cacheMutate (valsOf l) (.erase i k)
              (runStack (.lruCache 0 l) acts)).cacheMaxSize
          ∧ (cacheMutate (valsOf l) (.erase i k)
              (runStack (.lruCache 0 l) acts)).cacheMaxSize
            < (cacheMutate (valsOf l) (.erase i k)
              (runStack (.lruCache 0 l) acts)).buf.length) := by
        rintro ⟨_, hpos, _⟩
        rw [hm.2, ih2] at hpos
        exact absurd hpos (lt_irrefl 0)
      rw [show lruEvict (applyA l) (cacheMutate (valsOf l) (.erase i k)
            (runStack (.lruCache 0 l) acts))
          = cacheMutate (valsOf l) (.erase i k) (runStack (.lruCache 0 l) acts) from by
        simp only [lruEvict]
        rw [if_neg hguard]]
      exact ⟨hm.1.trans ih1, hm.2.trans ih2⟩
    | eraseAll i k =>
      have hm := cacheMutate_counters (valsOf l) (.eraseAll i k) (runStack (.lruCache 0 l) acts)
      have step : applyA (.lruCache 0 l) (runStack (.lruCache 0 l) acts) (.eraseAll i k)
          = lruEvict (applyA l)
            (cacheMutate (valsOf l) (.eraseAll i k) (runStack (.lruCache 0 l) acts)) := rfl
      rw [step]
      have hguard : ¬ ((cacheMutate (valsOf l) (.eraseAll i k)
            (runStack (.lruCache 0 l) acts)).tbuf.isNone
          ∧ 0 < (cacheMutate (valsOf l) (.eraseAll i k)
              (runStack (.lruCache 0 l) acts)).cacheMaxSize
          ∧ (cacheMutate (valsOf l) (.eraseAll i k)
              (runStack (.lruCache 0 l) acts)).cacheMaxSize
            < (cacheMutate (valsOf l) (.eraseAll i k)
              (runStack (.lruCache 0 l) acts)).buf.length) := by
        rintro ⟨_, hpos, _⟩
        rw [hm.2, ih2] at hpos
        exact absurd hpos (lt_irrefl 0)
      rw [show lruEvict (applyA l) (cacheMutate (valsOf l) (.eraseAll i k)
            (runStack (.lruCache 0 l) acts))
          = cacheMutate (valsOf l) (.eraseAll i k) (runStack (.lruCache 0 l) acts) from by
        simp only [lruEvict]
        rw [if_neg hguard]]
      exact ⟨hm.1.trans ih1, hm.2.trans ih2⟩
    | beginDBTransaction =>
      rcases hq : (runStack (.lruCache 0 l) acts).tbuf with _ | tb
      · have step : applyA (.lruCache 0 l) (runStack (.lruCache 0 l) acts) .beginDBTransaction
            = { runStack (.lruCache 0 l) acts with tbuf := some [] } := by
          show lruApply (valsOf l) (applyA l) (runStack (.lruCache 0 l) acts)
            .beginDBTransaction = _
          simp [lruApply, hq]
        rw [step]
        exact ⟨ih1, ih2⟩
      · have step : applyA (.lruCache 0 l) (runStack (.lruCache 0 l) acts) .beginDBTransaction
            = runStack (.lruCache 0 l) acts := by
          show lruApply (valsOf l) (applyA l) (runStack (.lruCache 0 l) acts)
            .beginDBTransaction = _
          simp [lruApply, hq]
        rw [step]
        exact ⟨ih1, ih2⟩
    | commitDBTransaction =>
      rcases hq : (runStack (.lruCache 0 l) acts).tbuf with _ | tb
      · have step : applyA (.lruCache 0 l) (runStack (.lruCache 0 l) acts) .commitDBTransaction
            = runStack (.lruCache 0 l) acts := by
          show lruApply (valsOf l) (applyA l) (runStack (.lruCache 0 l) acts)
            .commitDBTransaction = _
          simp [lruApply, hq]
        rw [step]
        exact ⟨ih1, ih2⟩
      · have step : applyA (.lruCache 0 l) (runStack (.lruCache 0 l) acts) .commitDBTransaction
            = { runStack (.lruCache 0 l) acts with tbuf := none, buf := mergeBuf (runStack (.lruCache 0 l) acts).buf tb } := by
          show lruApply (valsOf l) (applyA l) (runStack (.lruCache 0 l) acts)
            .commitDBTransaction = _
          simp [lruApply, hq]
        rw [step]
        exact ⟨ih1, ih2⟩
    | abortDBTransaction =>
      have step : applyA (.lruCache 0 l) (runStack (.lruCache 0 l) acts) .abortDBTransaction
          = { runStack (.lruCache 0 l) acts with tbuf := none } := by
        show lruApply (valsOf l) (applyA l) (runStack (.lruCache 0 l) acts)
          .abortDBTransaction = _
        simp [lruApply]
      rw [step]
      exact ⟨ih1, ih2⟩
    | flush hint =>
      have := hnf (.flush hint) (List.mem_append.2 (Or.inr (List.mem_cons_self _ _)))
      simp [Action.isFlush] at this

end ClaimHelpers

/-- readAll of a stack at one key of the returned map. -/
def readAllOf (d : StackDesc) (s : StackState d) (i : Index) (k : Key) : List Val :=
  valsOf d s i k

/-- readAll of the in-memory backend at one key of the returned map. -/
def InMemoryDB.readAll (s : InMemoryDB) (i : Index) (k : Key) : List Val :=
  s.cur i k

/-- readAllUnique of the in-memory backend at one key of the returned map. -/
def InMemoryDB.readAllUnique (s : InMemoryDB) (i : Index) (k : Key) : Option Val :=
  (s.cur i k).head?

section Claims

/-- C1: For every sequence of IDB operations applied identically to any cache
stack over the persistent backend and to the in-memory backend, and for every
one of the seven indexes, readAll and readAllUnique return equal results on
both (the returned maps are compared pointwise, at every key), both before
and after a flush of the cache stack. -/
theorem C1_layer_equivalence (d : StackDesc) (acts : List Action) (hint : Nat)
    (i : Index) (k : Key) :
    (readAllOf d (runStack d acts) i k = (runMem acts).readAll i k
      ∧ readAllUniqueOf d (runStack d acts) i k = (runMem acts).readAllUnique i k)
    ∧ (readAllOf d (runStack d (acts ++ [Action.flush hint])) i k
        = (runMem (acts ++ [Action.flush hint])).readAll i k
      ∧ readAllUniqueOf d (runStack d (acts ++ [Action.flush hint])) i k
        = (runMem (acts ++ [Action.flush hint])).readAllUnique i k) := by
  have h1 := runStack_vals d acts
  have h2 := runStack_vals d (acts ++ [Action.flush hint])
  refine ⟨⟨?_, ?_⟩, ?_, ?_⟩
  · show valsOf d (runStack d acts) i k = (runMem acts).cur i k
    rw [h1]
  · show (valsOf d (runStack d acts) i k).head? = ((runMem acts).cur i k).head?
    rw [h1]
  · show valsOf d (runStack d (acts ++ [Action.flush hint])) i k
      = (runMem (acts ++ [Action.flush hint])).cur i k
    rw [h2]
  · show (valsOf d (runStack d (acts ++ [Action.flush hint])) i k).head?
      = ((runMem (acts ++ [Action.flush hint])).cur i k).head?
    rw [h2]

/-- C2: For every backend or cache stack: after beginDBTransaction, any
number of writes and erases staged in that transaction, and then
abortDBTransaction, none of the transaction's mutations is observable
(exists returns false and readMultiple returns empty for keys absent before
the begin), while every key-value pair committed before the begin is still
readable unchanged.  The stack is required not to have a transaction already
open when the begin is issued (a nested begin fails). -/
theorem C2_transaction_abort_isolation (d : StackDesc) (acts muts : List Action)
    (i : Index) (k : Key)
    (hm : ∀ a ∈ muts, a.isMut = true)
    (hntx : (absOf d (runStack d acts)).snap = none) :
    readMultipleOf d (runStack d (acts ++ Action.beginDBTransaction :: muts
        ++ [Action.abortDBTransaction])) i k
      = readMultipleOf d (runStack d acts) i k
    ∧ (existsOf d (runStack d acts) i k = false →
        existsOf d (runStack d (acts ++ Action.beginDBTransaction :: muts
          ++ [Action.abortDBTransaction])) i k = false
        ∧ readMultipleOf d (runStack d (acts ++ Action.beginDBTransaction :: muts
          ++ [Action.abortDBTransaction])) i k = []) := by
  have hsn : (runMem acts).snap = none := by
    rw [← (run_sim d acts).2]
    exact hntx
  have hrun : runMem (acts ++ Action.beginDBTransaction :: muts
      ++ [Action.abortDBTransaction]) = ⟨(runMem acts).cur, none⟩ := by
    rw [List.append_assoc, runMem_append]
    exact mem_abort_run (runMem acts) hsn muts hm
  have hv : valsOf d (runStack d (acts ++ Action.beginDBTransaction :: muts
      ++ [Action.abortDBTransaction])) i k = valsOf d (runStack d acts) i k := by
    rw [runStack_vals, runStack_vals, hrun]
  refine ⟨hv, ?_⟩
  intro hex
  refine ⟨?_, ?_⟩
  · show (!(valsOf d (runStack d (acts ++ Action.beginDBTransaction :: muts
      ++ [Action.abortDBTransaction])) i k).isEmpty) = false
    rw [hv]
    exact hex
  · show valsOf d (runStack d (acts ++ Action.beginDBTransaction :: muts
      ++ [Action.abortDBTransaction])) i k = []
    rw [hv]
    rcases hq : valsOf d (runStack d acts) i k with _ | ⟨v, rest⟩
    · rfl
    · exfalso
      have : existsOf d (runStack d acts) i k = true := by
        simp [existsOf, hq]
      rw [this] at hex
      exact Bool.noConfusion hex

/-- C3: On a unique (non-duplicate) index, for every key k and values v1,
v2: after write(k, v1), read(k) returns v1 and exists(k) is true; after a
subsequent write(k, v2), read(k) returns v2 (replacement, not append); after
erase(k), read(k) is absent and exists(k) is false. -/
theorem C3_unique_index_roundtrip (d : StackDesc) (acts : List Action) (i : Index)
    (k : Key) (v1 v2 : Val) (hu : DuplicateKeysAllowed i = false) :
    readOf d (runStack d (acts ++ [Action.write i k v1])) i k 0 none = some v1
    ∧ existsOf d (runStack d (acts ++ [Action.write i k v1])) i k = true
    ∧ readOf d (runStack d (acts ++ [Action.write i k v1, Action.write i k v2]))
        i k 0 none = some v2
    ∧ readOf d (runStack d (acts ++ [Action.write i k v1, Action.write i k v2,
        Action.erase i k])) i k 0 none = none
    ∧ existsOf d (runStack d (acts ++ [Action.write i k v1, Action.write i k v2,
        Action.erase i k])) i k = false := by
  have h1 : (runMem (acts ++ [Action.write i k v1])).cur i k = [v1] := by
    rw [runMem_append]
    simp [InMemoryDB.applyAct, storeWrite_self, hu]
  have h2 : (runMem (acts ++ [Action.write i k v1, Action.write i k v2])).cur i k
      = [v2] := by
    rw [runMem_append]
    simp [InMemoryDB.applyAct, storeWrite_self, hu]
  have h3 : (runMem (acts ++ [Action.write i k v1, Action.write i k v2,
      Action.erase i k])).cur i k = [] := by
    rw [runMem_append]
    simp [InMemoryDB.applyAct, storeErase_self, hu]
  refine ⟨?_, ?_, ?_, ?_, ?_⟩
  · show readVals (valsOf d (runStack d (acts ++ [Action.write i k v1])) i k) 0 none
      = some v1
    rw [runStack_vals, h1]
    rw [show readVals [v1] 0 none = some (sliceVal v1 0 none) from rfl, sliceVal_zero_none]
  · show (!(valsOf d (runStack d (acts ++ [Action.write i k v1])) i k).isEmpty) = true
    rw [runStack_vals, h1]
    rfl
  · show readVals (valsOf d (runStack d (acts ++ [Action.write i k v1,
      Action.write i k v2])) i k) 0 none = some v2
    rw [runStack_vals, h2]
    rw [show readVals [v2] 0 none = some (sliceVal v2 0 none) from rfl, sliceVal_zero_none]
  · show readVals (valsOf d (runStack d (acts ++ [Action.write i k v1,
      Action.write i k v2, Action.erase i k])) i k) 0 none = none
    rw [runStack_vals, h3]
    rfl
  · show (!(valsOf d (runStack d (acts ++ [Action.write i k v1, Action.write i k v2,
      Action.erase i k])) i k).isEmpty) = false
    rw [runStack_vals, h3]
    rfl

/-- C4: For every duplicate-allowed index and key, readMultiple returns all
stored values for that key in insertion order (appending a sequence of
writes extends the returned sequence in that order); for a unique index it
returns zero or one value; and it returns the empty sequence when the key is
absent. -/
theorem C4_readMultiple_semantics (d : StackDesc) (acts : List Action) (i : Index)
    (k : Key) (vs : List Val) :
    (DuplicateKeysAllowed i = true →
      readMultipleOf d (runStack d (acts ++ vs.map (Action.write i k))) i k
        = readMultipleOf d (runStack d acts) i k ++ vs)
    ∧ (DuplicateKeysAllowed i = false →
      (readMultipleOf d (runStack d acts) i k).length ≤ 1)
    ∧ (existsOf d (runStack d acts) i k = false →
      readMultipleOf d (runStack d acts) i k = []) := by
  refine ⟨?_, ?_, ?_⟩
  · intro hdup
    show valsOf d (runStack d (acts ++ vs.map (Action.write i k))) i k
      = valsOf d (runStack d acts) i k ++ vs
    rw [runStack_vals, runStack_vals, runMem_append,
      mem_writes_dup i k hdup vs (runMem acts)]
  · intro hu
    show (valsOf d (runStack d acts) i k).length ≤ 1
    rw [runStack_vals]
    exact (MemWF_runMem acts).1 i k hu
  · intro hne
    show valsOf d (runStack d acts) i k = []
    rcases hq : valsOf d (runStack d acts) i k with _ | ⟨v, rest⟩
    · rfl
    · exfalso
      have : existsOf d (runStack d acts) i k = true := by
        simp [existsOf, hq]
      rw [this] at hne
      exact Bool.noConfusion hne

/-- C5: For every stored pair (k, v) on a unique index and for all legal
offset and size arguments, read(k, offset, size) returns the byte substring
of v starting at min(offset, length v) and extending min(size, length v
minus that start) bytes; an offset at or past the end yields the empty
string, and an absent size means read to the end. -/
theorem C5_read_slice_semantics (d : StackDesc) (acts : List Action) (i : Index)
    (k : Key) (offset sz : Nat) (v : Val)
    (_hu : DuplicateKeysAllowed i = false)
    (hst : readMultipleOf d (runStack d acts) i k = [v]) :
    readOf d (runStack d acts) i k offset (some sz)
      = some ((v.drop (min offset v.length)).take
          (min sz (v.length - min offset v.length)))
    ∧ readOf d (runStack d acts) i k offset none = some (v.drop (min offset v.length))
    ∧ (offset < v.length ∨ readOf d (runStack d acts) i k offset (some sz) = some []) := by
  have hv : valsOf d (runStack d acts) i k = [v] := hst
  refine ⟨?_, ?_, ?_⟩
  · show readVals (valsOf d (runStack d acts) i k) offset (some sz) = _
    rw [hv]
    rw [show readVals [v] offset (some sz) = some (sliceVal v offset (some sz)) from rfl,
      sliceVal_some_clamped]
  · show readVals (valsOf d (runStack d acts) i k) offset none = _
    rw [hv]
    rw [show readVals [v] offset none = some (sliceVal v offset none) from rfl,
      sliceVal_none_clamped]
  · rcases lt_or_le offset v.length with h | h
    · exact Or.inl h
    · refine Or.inr ?_
      show readVals (valsOf d (runStack d acts) i k) offset (some sz) = some []
      rw [hv]
      rw [show readVals [v] offset (some sz) = some (sliceVal v offset (some sz)) from rfl,
        sliceVal_some_clamped, min_eq_right h, List.drop_length]
      simp

/-- C6: For every index, readAllUnique returns exactly one value per stored
key (it is some exactly when the key exists), and the value returned for a
key is always one of the values that readMultiple returns for that same
key. -/
theorem C6_readAllUnique_consistency (d : StackDesc) (acts : List Action) (i : Index)
    (k : Key) :
    (readAllUniqueOf d (runStack d acts) i k).isSome = existsOf d (runStack d acts) i k
    ∧ (readAllUniqueOf d (runStack d acts) i k).elim True
        (fun v => v ∈ readMultipleOf d (runStack d acts) i k) := by
  rcases hv : valsOf d (runStack d acts) i k with _ | ⟨v, rest⟩
  · constructor
    · show (valsOf d (runStack d acts) i k).head?.isSome
        = !(valsOf d (runStack d acts) i k).isEmpty
      rw [hv]
      rfl
    · show ((valsOf d (runStack d acts) i k).head?).elim True
        (fun v => v ∈ valsOf d (runStack d acts) i k)
      rw [hv]
      exact trivial
  · constructor
    · show (valsOf d (runStack d acts) i k).head?.isSome
        = !(valsOf d (runStack d acts) i k).isEmpty
      rw [hv]
      rfl
    · show ((valsOf d (runStack d acts) i k).head?).elim True
        (fun v => v ∈ valsOf d (runStack d acts) i k)
      rw [hv]
      exact List.mem_cons_self v rest

/-- C7: Within a single open transaction on any layer, reads observe that
transaction's own prior staged writes and erases before any commit has
occurred: after begin, the visible values equal the staged mutations applied
to the state at begin, a staged write is immediately visible to
readMultiple and exists, and a staged erase is immediately observed. -/
theorem C7_read_your_writes (d : StackDesc) (acts muts : List Action) (i : Index)
    (k : Key) (v : Val) (hm : ∀ a ∈ muts, a.isMut = true) :
    (readMultipleOf d (runStack d ((acts ++ [Action.beginDBTransaction]) ++ muts)) i k
      = applyStoreList (valsOf d (runStack d (acts ++ [Action.beginDBTransaction])))
          muts i k)
    ∧ (readMultipleOf d (runStack d (((acts ++ [Action.beginDBTransaction]) ++ muts)
          ++ [Action.write i k v])) i k
        = (if DuplicateKeysAllowed i = true
           then readMultipleOf d
              (runStack d ((acts ++ [Action.beginDBTransaction]) ++ muts)) i k ++ [v]
           else [v]))
    ∧ existsOf d (runStack d (((acts ++ [Action.beginDBTransaction]) ++ muts)
          ++ [Action.write i k v])) i k = true
    ∧ (readMultipleOf d (runStack d (((acts ++ [Action.beginDBTransaction]) ++ muts)
          ++ [Action.erase i k])) i k
        = (if DuplicateKeysAllowed i = true
           then (readMultipleOf d
              (runStack d ((acts ++ [Action.beginDBTransaction]) ++ muts)) i k).tail
           else [])) := by
  have hbase : valsOf d (runStack d ((acts ++ [Action.beginDBTransaction]) ++ muts)) i k
      = applyStoreList ((runMem (acts ++ [Action.beginDBTransaction])).cur) muts i k := by
    rw [runStack_vals, runMem_append, foldl_applyAct_muts muts hm]
  refine ⟨?_, ?_, ?_, ?_⟩
  · show valsOf d (runStack d ((acts ++ [Action.beginDBTransaction]) ++ muts)) i k = _
    rw [hbase, runStack_vals]
  · show valsOf d (runStack d (((acts ++ [Action.beginDBTransaction]) ++ muts)
        ++ [Action.write i k v])) i k = _
    rw [runStack_vals, runMem_append]
    rw [show ([Action.write i k v].foldl InMemoryDB.applyAct
        (runMem ((acts ++ [Action.beginDBTransaction]) ++ muts)))
      = (runMem ((acts ++ [Action.beginDBTransaction]) ++ muts)).applyAct
          (Action.write i k v) from rfl]
    show storeWrite (runMem ((acts ++ [Action.beginDBTransaction]) ++ muts)).cur
        i k v i k = _
    rw [storeWrite_self]
    rw [show readMultipleOf d (runStack d ((acts ++ [Action.beginDBTransaction]) ++ muts))
        i k = valsOf d (runStack d ((acts ++ [Action.beginDBTransaction]) ++ muts)) i k
      from rfl, runStack_vals]
  · show (!(valsOf d (runStack d (((acts ++ [Action.beginDBTransaction]) ++ muts)
        ++ [Action.write i k v])) i k).isEmpty) = true
    rw [runStack_vals, runMem_append]
    rw [show ([Action.write i k v].foldl InMemoryDB.applyAct
        (runMem ((acts ++ [Action.beginDBTransaction]) ++ muts)))
      = (runMem ((acts ++ [Action.beginDBTransaction]) ++ muts)).applyAct
          (Action.write i k v) from rfl]
    show (!(storeWrite (runMem ((acts ++ [Action.beginDBTransaction]) ++ muts)).cur
        i k v i k).isEmpty) = true
    rw [storeWrite_self]
    rcases hdup : DuplicateKeysAllowed i <;> simp
  · show valsOf d (runStack d (((acts ++ [Action.beginDBTransaction]) ++ muts)
        ++ [Action.erase i k])) i k = _
    rw [runStack_vals, runMem_append]
    rw [show ([Action.erase i k].foldl InMemoryDB.applyAct
        (runMem ((acts ++ [Action.beginDBTransaction]) ++ muts)))
      = (runMem ((acts ++ [Action.beginDBTransaction]) ++ muts)).applyAct
          (Action.erase i k) from rfl]
    show storeErase (runMem ((acts ++ [Action.beginDBTransaction]) ++ muts)).cur
        i k i k = _
    rw [storeErase_self]
    rw [show readMultipleOf d (runStack d ((acts ++ [Action.beginDBTransaction]) ++ muts))
        i k = valsOf d (runStack d ((acts ++ [Action.beginDBTransaction]) ++ muts)) i k
      from rfl, runStack_vals]

/-- C8: For a write-buffering cache layer (the write-through cache or the
LRU cache over any lower stack), flush(hint) leaves all readable state
unchanged and the flush counter strictly increases; with auto-flush disabled
(cacheMaxSize, and for the LRU layer maxEntries, equal to 0), GetFlushCount
is 0 before the first explicit flush and exactly 1 after it. -/
theorem C8_flush_semantics (m : Nat) (l : StackDesc) (acts acts2 : List Action)
    (hint hint2 : Nat) (i : Index) (k : Key)
    (hnf : ∀ a ∈ acts2, a.isFlush = false) :
    readMultipleOf (.dbCache m l) (runStack (.dbCache m l) (acts ++ [Action.flush hint]))
        i k
      = readMultipleOf (.dbCache m l) (runStack (.dbCache m l) acts) i k
    ∧ GetFlushCount (.dbCache m l) (runStack (.dbCache m l) (acts ++ [Action.flush hint]))
      = GetFlushCount (.dbCache m l) (runStack (.dbCache m l) acts) + 1
    ∧ readMultipleOf (.lruCache m l)
        (runStack (.lruCache m l) (acts ++ [Action.flush hint])) i k
      = readMultipleOf (.lruCache m l) (runStack (.lruCache m l) acts) i k
    ∧ GetFlushCount (.lruCache m l) (runStack (.lruCache m l) (acts ++ [Action.flush hint]))
      = GetFlushCount (.lruCache m l) (runStack (.lruCache m l) acts) + 1
    ∧ GetFlushCount (.dbCache 0 l) (runStack (.dbCache 0 l) acts2) = 0
    ∧ GetFlushCount (.dbCache 0 l)
        (runStack (.dbCache 0 l) (acts2 ++ [Action.flush hint2])) = 1
    ∧ GetFlushCount (.lruCache 0 l) (runStack (.lruCache 0 l) acts2) = 0
    ∧ GetFlushCount (.lruCache 0 l)
        (runStack (.lruCache 0 l) (acts2 ++ [Action.flush hint2])) = 1 := by
  refine ⟨?_, ?_, ?_, ?_, ?_, ?_, ?_, ?_⟩
  · show valsOf (.dbCache m l) (runStack (.dbCache m l) (acts ++ [Action.flush hint])) i k
      = valsOf (.dbCache m l) (runStack (.dbCache m l) acts) i k
    rw [runStack_vals, runStack_vals, runMem_append]
    rfl
  · rw [runStack_snoc]
    rfl
  · show valsOf (.lruCache m l) (runStack (.lruCache m l) (acts ++ [Action.flush hint])) i k
      = valsOf (.lruCache m l) (runStack (.lruCache m l) acts) i k
    rw [runStack_vals, runStack_vals, runMem_append]
    rfl
  · rw [runStack_snoc]
    rfl
  · exact (dbCache_noflush l acts2 hnf).1
  · rw [runStack_snoc]
    show (runStack (.dbCache 0 l) acts2).flushCount + 1 = 1
    rw [(dbCache_noflush l acts2 hnf).1]
  · exact (lruCache_noflush l acts2 hnf).1
  · rw [runStack_snoc]
    show (runStack (.lruCache 0 l) acts2).flushCount + 1 = 1
    rw [(lruCache_noflush l acts2 hnf).1]

end Claims

section Witnesses

def kEx : Key := [1]

def vEx1 : Val := [7]

def vEx2 : Val := [8, 9]

def dEx : StackDesc := .dbCache 0 (.readCache .lmdb)

def actsEx : List Action :=
  [Action.write .DB_MAIN_INDEX kEx vEx1, Action.write .DB_NTP1TOKENNAMES_INDEX kEx vEx1]

def mutsEx : List Action :=
  [Action.write .DB_MAIN_INDEX [2] vEx2, Action.erase .DB_MAIN_INDEX kEx]

theorem C2_transaction_abort_isolation_witness :
    readMultipleOf dEx (runStack dEx (actsEx ++ Action.beginDBTransaction :: mutsEx
        ++ [Action.abortDBTransaction])) Index.DB_MAIN_INDEX kEx
      = readMultipleOf dEx (runStack dEx actsEx) Index.DB_MAIN_INDEX kEx
    ∧ (existsOf dEx (runStack dEx actsEx) Index.DB_MAIN_INDEX kEx = false →
        existsOf dEx (runStack dEx (actsEx ++ Action.beginDBTransaction :: mutsEx
          ++ [Action.abortDBTransaction])) Index.DB_MAIN_INDEX kEx = false
        ∧ readMultipleOf dEx (runStack dEx (actsEx ++ Action.beginDBTransaction :: mutsEx
          ++ [Action.abortDBTransaction])) Index.DB_MAIN_INDEX kEx = []) :=
  C2_transaction_abort_isolation dEx actsEx mutsEx Index.DB_MAIN_INDEX kEx
    (by decide) (by rfl)

theorem C3_unique_index_roundtrip_witness :
    readOf dEx (runStack dEx ([] ++ [Action.write Index.DB_MAIN_INDEX kEx vEx1]))
        Index.DB_MAIN_INDEX kEx 0 none = some vEx1
    ∧ existsOf dEx (runStack dEx ([] ++ [Action.write Index.DB_MAIN_INDEX kEx vEx1]))
        Index.DB_MAIN_INDEX kEx = true
    ∧ readOf dEx (runStack dEx ([] ++ [Action.write Index.DB_MAIN_INDEX kEx vEx1,
        Action.write Index.DB_MAIN_INDEX kEx vEx2])) Index.DB_MAIN_INDEX kEx 0 none
        = some vEx2
    ∧ readOf dEx (runStack dEx ([] ++ [Action.write Index.DB_MAIN_INDEX kEx vEx1,
        Action.write Index.DB_MAIN_INDEX kEx vEx2, Action.erase Index.DB_MAIN_INDEX kEx]))
        Index.DB_MAIN_INDEX kEx 0 none = none
    ∧ existsOf dEx (runStack dEx ([] ++ [Action.write Index.DB_MAIN_INDEX kEx vEx1,
        Action.write Index.DB_MAIN_INDEX kEx vEx2, Action.erase Index.DB_MAIN_INDEX kEx]))
        Index.DB_MAIN_INDEX kEx = false :=
  C3_unique_index_roundtrip dEx [] Index.DB_MAIN_INDEX kEx vEx1 vEx2 rfl

theorem C5_read_slice_semantics_witness :
    readOf dEx (runStack dEx [Action.write Index.DB_MAIN_INDEX kEx vEx2])
        Index.DB_MAIN_INDEX kEx 1 (some 5)
      = some ((vEx2.drop (min 1 vEx2.length)).take
          (min 5 (vEx2.length - min 1 vEx2.length)))
    ∧ readOf dEx (runStack dEx [Action.write Index.DB_MAIN_INDEX kEx vEx2])
        Index.DB_MAIN_INDEX kEx 1 none = some (vEx2.drop (min 1 vEx2.length))
    ∧ (1 < vEx2.length ∨ readOf dEx (runStack dEx [Action.write Index.DB_MAIN_INDEX kEx vEx2])
        Index.DB_MAIN_INDEX kEx 1 (some 5) = some []) :=
  C5_read_slice_semantics dEx [Action.write Index.DB_MAIN_INDEX kEx vEx2]
    Index.DB_MAIN_INDEX kEx 1 5 vEx2 rfl (by decide)

theorem C7_read_your_writes_witness :
    (readMultipleOf dEx (runStack dEx ((actsEx ++ [Action.beginDBTransaction]) ++ mutsEx))
        Index.DB_NTP1TOKENNAMES_INDEX kEx
      = applyStoreList (valsOf dEx (runStack dEx (actsEx ++ [Action.beginDBTransaction])))
          mutsEx Index.DB_NTP1TOKENNAMES_INDEX kEx)
    ∧ (readMultipleOf dEx (runStack dEx (((actsEx ++ [Action.beginDBTransaction]) ++ mutsEx)
          ++ [Action.write Index.DB_NTP1TOKENNAMES_INDEX kEx vEx1]))
          Index.DB_NTP1TOKENNAMES_INDEX kEx
        = (if DuplicateKeysAllowed Index.DB_NTP1TOKENNAMES_INDEX = true
           then readMultipleOf dEx
              (runStack dEx ((actsEx ++ [Action.beginDBTransaction]) ++ mutsEx))
              Index.DB_NTP1TOKENNAMES_INDEX kEx ++ [vEx1]
           else [vEx1]))
    ∧ existsOf dEx (runStack dEx (((actsEx ++ [Action.beginDBTransaction]) ++ mutsEx)
          ++ [Action.write Index.DB_NTP1TOKENNAMES_INDEX kEx vEx1]))
          Index.DB_NTP1TOKENNAMES_INDEX kEx = true
    ∧ (readMultipleOf dEx (runStack dEx (((actsEx ++ [Action.beginDBTransaction]) ++ mutsEx)
          ++ [Action.erase Index.DB_NTP1TOKENNAMES_INDEX kEx]))
          Index.DB_NTP1TOKENNAMES_INDEX kEx
        = (if DuplicateKeysAllowed Index.DB_NTP1TOKENNAMES_INDEX = true
           then (readMultipleOf dEx
              (runStack dEx ((actsEx ++ [Action.beginDBTransaction]) ++ mutsEx))
              Index.DB_NTP1TOKENNAMES_INDEX kEx).tail
           else [])) :=
  C7_read_your_writes dEx actsEx mutsEx Index.DB_NTP1TOKENNAMES_INDEX kEx vEx1 (by decide)

theorem C8_flush_semantics_witness :
    readMultipleOf (.dbCache 3 (.readCache .lmdb))
        (runStack (.dbCache 3 (.readCache .lmdb)) (actsEx ++ [Action.flush 0]))
        Index.DB_MAIN_INDEX kEx
      = readMultipleOf (.dbCache 3 (.readCache .lmdb))
          (runStack (.dbCache 3 (.readCache .lmdb)) actsEx) Index.DB_MAIN_INDEX kEx
    ∧ GetFlushCount (.dbCache 3 (.readCache .lmdb))
        (runStack (.dbCache 3 (.readCache .lmdb)) (actsEx ++ [Action.flush 0]))
      = GetFlushCount (.dbCache 3 (.readCache .lmdb))
          (runStack (.dbCache 3 (.readCache .lmdb)) actsEx) + 1
    ∧ readMultipleOf (.lruCache 3 (.readCache .lmdb))
        (runStack (.lruCache 3 (.readCache .lmdb)) (actsEx ++ [Action.flush 0]))
        Index.DB_MAIN_INDEX kEx
      = readMultipleOf (.lruCache 3 (.readCache .lmdb))
          (runStack (.lruCache 3 (.readCache .lmdb)) actsEx) Index.DB_MAIN_INDEX kEx
    ∧ GetFlushCount (.lruCache 3 (.readCache .lmdb))
        (runStack (.lruCache 3 (.readCache .lmdb)) (actsEx ++ [Action.flush 0]))
      = GetFlushCount (.lruCache 3 (.readCache .lmdb))
          (runStack (.lruCache 3 (.readCache .lmdb)) actsEx) + 1
    ∧ GetFlushCount (.dbCache 0 (.readCache .lmdb))
        (runStack (.dbCache 0 (.readCache .lmdb)) actsEx) = 0
    ∧ GetFlushCount (.dbCache 0 (.readCache .lmdb))
        (runStack (.dbCache 0 (.readCache .lmdb)) (actsEx ++ [Action.flush 9])) = 1
    ∧ GetFlushCount (.lruCache 0 (.readCache .lmdb))
        (runStack (.lruCache 0 (.readCache .lmdb)) actsEx) = 0
    ∧ GetFlushCount (.lruCache 0 (.readCache .lmdb))
        (runStack (.lruCache 0 (.readCache .lmdb)) (actsEx ++ [Action.flush 9])) = 1 :=
  C8_flush_semantics 3 (.readCache .lmdb) actsEx actsEx 0 9 Index.DB_MAIN_INDEX kEx
    (by decide)

end Witnesses

section Base64

/-- Character codes of the base64 alphabet string
`ABCDEFGHIJKLMNOPQRSTUVWXYZabcdefghijklmnopqrstuvwxyz0123456789+/`
(the `pbase64` table of `EncodeBase64` in util.cpp). -/
def pbase64 : List Nat :=
  [65, 66, 67, 68, 69, 70, 71, 72, 73, 74, 75, 76, 77, 78, 79, 80, 81, 82, 83,
   84, 85, 86, 87, 88, 89, 90,
   97, 98, 99, 100, 101, 102, 103, 104, 105, 106, 107, 108, 109, 110, 111, 112,
   113, 114, 115, 116, 117, 118, 119, 120, 121, 122,
   48, 49, 50, 51, 52, 53, 54, 55, 56, 57, 43, 47]

/-- The while loop of `EncodeBase64` together with its trailing `if (mode)`
padding block: `mode` counts the pending bits held in `left` (0, 2 or 4 bits).
`enc >> 2` is `enc / 4`, `(enc & 3) << 4` is `enc % 4 * 16`, `enc >> 4` is
`enc / 16`, `(enc & 15) << 2` is `enc % 16 * 4`, `enc >> 6` is `enc / 64` and
`enc & 63` is `enc % 64`; since the shifted `left` and the high bits of `enc`
occupy disjoint bit positions, C's bitwise or is addition.  When the input is
exhausted with pending bits, the held character and the `=` padding (char
code 61) are emitted, with a second `=` when only one byte of the group was
seen (`mode == 1`). -/
def encGo : Nat → Nat → List Nat → List Nat
  | mode, left, [] =>
      if mode = 0 then []
      else pbase64.getD left 0 :: 61 :: (if mode = 1 then [61] else [])
  | 0, _, enc :: rest =>
      pbase64.getD (enc / 4) 0 :: encGo 1 (enc % 4 * 16) rest
  | 1, left, enc :: rest =>
      pbase64.getD (left + enc / 16) 0 :: encGo 2 (enc % 16 * 4) rest
  | _, left, enc :: rest =>
      pbase64.getD (left + enc / 64) 0 :: pbase64.getD (enc % 64) 0 ::
        encGo 0 0 rest

/-- `EncodeBase64(pch, len)`: the byte buffer is the list, the returned
string is its list of character codes. -/
def EncodeBase64 (d : List Nat) : List Nat := encGo 0 0 d

/-- The 256-entry `decode64_table` of `DecodeBase64`: -1 marks a character
that is not part of the base64 alphabet; in particular entry 0, the NUL
terminator, is -1, which is what stops the decoding loop at the end of the
input string. -/
def decode64_table : List Int :=
  [-1, -1, -1, -1, -1, -1, -1, -1, -1, -1, -1, -1, -1, -1, -1, -1, -1, -1, -1,
   -1, -1, -1, -1, -1,
   -1, -1, -1, -1, -1, -1, -1, -1, -1, -1, -1, -1, -1, -1, -1, -1, -1, -1, -1,
   62, -1, -1, -1, 63,
   52, 53, 54, 55, 56, 57, 58, 59, 60, 61, -1, -1, -1, -1, -1, -1, -1, 0, 1,
   2, 3, 4, 5, 6,
   7, 8, 9, 10, 11, 12, 13, 14, 15, 16, 17, 18, 19, 20, 21, 22, 23, 24, 25,
   -1, -1, -1, -1, -1,
   -1, 26, 27, 28, 29, 30, 31, 32, 33, 34, 35, 36, 37, 38, 39, 40, 41, 42, 43,
   44, 45, 46, 47, 48,
   49, 50, 51, -1, -1, -1, -1, -1, -1, -1, -1, -1, -1, -1, -1, -1, -1, -1, -1,
   -1, -1, -1, -1, -1,
   -1, -1, -1, -1, -1, -1, -1, -1, -1, -1, -1, -1, -1, -1, -1, -1, -1, -1, -1,
   -1, -1, -1, -1, -1,
   -1, -1, -1, -1, -1, -1, -1, -1, -1, -1, -1, -1, -1, -1, -1, -1, -1, -1, -1,
   -1, -1, -1, -1, -1,
   -1, -1, -1, -1, -1, -1, -1, -1, -1, -1, -1, -1, -1, -1, -1, -1, -1, -1, -1,
   -1, -1, -1, -1, -1,
   -1, -1, -1, -1, -1, -1, -1, -1, -1, -1, -1, -1, -1, -1, -1, -1, -1, -1, -1,
   -1, -1, -1, -1, -1,
   -1, -1, -1, -1, -1, -1, -1, -1, -1, -1, -1, -1, -1, -1, -1, -1]

/-- Reading a C string at position `n`: past the end of the list stands the
NUL terminator, character code 0. -/
def charAt (s : List Nat) (n : Nat) : Nat := s.getD n 0

/-- The while loop of `DecodeBase64`: decodes until the first character whose
table entry is -1 and returns the decoded bytes, the final `mode` and `left`,
and the unread remainder of the string (the validity check reads up to three
characters from there).  `left << 2` is `left * 4`, `dec >> 4` is `d / 16`,
`dec & 15` is `d % 16`, and so on; the disjoint bit positions again turn C's
bitwise or into addition, and `push_back` into a `vector<unsigned char>`
reduces the pushed value mod 256. -/
def decLoop : Nat → Nat → List Nat → List Nat × Nat × Nat × List Nat
  | mode, left, [] => ([], mode, left, [])
  | mode, left, c :: rest =>
      if decode64_table.getD c (-1) = -1 then ([], mode, left, c :: rest)
      else
        let d := (decode64_table.getD c (-1)).toNat
        match mode with
        | 0 => decLoop 1 d rest
        | 1 =>
            let o := decLoop 2 (d % 16) rest
            ((left * 4 + d / 16) % 256 :: o.1, o.2)
        | 2 =>
            let o := decLoop 3 (d % 4) rest
            ((left * 16 + d / 4) % 256 :: o.1, o.2)
        | _ =>
            let o := decLoop 0 left rest
            ((left * 64 + d) % 256 :: o.1, o.2)

/-- `DecodeBase64(p, pfInvalid)`, with the `pfInvalid` out-parameter as the
returned Bool: after the greedy decode, `mode` 0 is valid, `mode` 1 is always
invalid, and `mode` 2 (resp. 3) requires no pending bits, `==` (resp. `=`)
right at the stopping point and nothing decodable after the padding. -/
def DecodeBase64 (p : List Nat) : List Nat × Bool :=
  let r := decLoop 0 0 p
  let mode := r.2.1
  let left := r.2.2.1
  let rest := r.2.2.2
  let invalid : Bool :=
    if mode = 0 then false
    else if mode = 1 then true
    else if mode = 2 then
      if left ≠ 0 ∨ charAt rest 0 ≠ 61 ∨ charAt rest 1 ≠ 61 ∨
          decode64_table.getD (charAt rest 2) (-1) ≠ -1 then true else false
    else
      if left ≠ 0 ∨ charAt rest 0 ≠ 61 ∨
          decode64_table.getD (charAt rest 1) (-1) ≠ -1 then true else false
  (r.1, invalid)

/-- Looking up a base64 alphabet character in the decode table recovers its
index. -/
theorem decode_pbase64 :
    ∀ j, j < 64 → decode64_table.getD (pbase64.getD j 0) (-1) = (j : Int) := by
  decide

theorem decLoop_hit0 (l c j : Nat) (rest : List Nat)
    (hj : decode64_table.getD c (-1) = (j : Int)) :
    decLoop 0 l (c :: rest) = decLoop 1 j rest := by
  simp only [decLoop, hj]
  rw [if_neg (by omega)]
  simp

theorem decLoop_hit1 (l c j : Nat) (rest : List Nat)
    (hj : decode64_table.getD c (-1) = (j : Int)) :
    decLoop 1 l (c :: rest) =
      ((l * 4 + j / 16) % 256 :: (decLoop 2 (j % 16) rest).1,
        (decLoop 2 (j % 16) rest).2) := by
  simp only [decLoop, hj]
  rw [if_neg (by omega)]
  simp

theorem decLoop_hit2 (l c j : Nat) (rest : List Nat)
    (hj : decode64_table.getD c (-1) = (j : Int)) :
    decLoop 2 l (c :: rest) =
      ((l * 16 + j / 4) % 256 :: (decLoop 3 (j % 4) rest).1,
        (decLoop 3 (j % 4) rest).2) := by
  simp only [decLoop, hj]
  rw [if_neg (by omega)]
  simp

theorem decLoop_hit3 (l c j : Nat) (rest : List Nat)
    (hj : decode64_table.getD c (-1) = (j : Int)) :
    decLoop 3 l (c :: rest) =
      ((l * 64 + j) % 256 :: (decLoop 0 l rest).1, (decLoop 0 l rest).2) := by
  simp only [decLoop, hj]
  rw [if_neg (by omega)]
  simp

theorem encGo_nil : encGo 0 0 [] = [] := rfl

theorem encGo_one (b0 : Nat) :
    encGo 0 0 [b0] =
      [pbase64.getD (b0 / 4) 0, pbase64.getD (b0 % 4 * 16) 0, 61, 61] := rfl

theorem encGo_two (b0 b1 : Nat) :
    encGo 0 0 [b0, b1] =
      [pbase64.getD (b0 / 4) 0, pbase64.getD (b0 % 4 * 16 + b1 / 16) 0,
       pbase64.getD (b1 % 16 * 4) 0, 61] := rfl

theorem encGo_three (b0 b1 b2 : Nat) (rest : List Nat) :
    encGo 0 0 (b0 :: b1 :: b2 :: rest) =
      pbase64.getD (b0 / 4) 0 :: pbase64.getD (b0 % 4 * 16 + b1 / 16) 0 ::
      pbase64.getD (b1 % 16 * 4 + b2 / 64) 0 :: pbase64.getD (b2 % 64) 0 ::
      encGo 0 0 rest := rfl

theorem decLoop_stop2 : decLoop 2 0 [61, 61] = ([], 2, 0, [61, 61]) := rfl

theorem decLoop_stop3 : decLoop 3 0 [61] = ([], 3, 0, [61]) := rfl

/-- Decoding the encoder output: the decoded bytes are the original bytes and
the decoder stops exactly at the padding, with no pending bits, in the mode
matching the length of the input modulo 3 (the incoming `left` of the decoder
is arbitrary: a group of four characters overwrites it before it is ever
read). -/
theorem decLoop_encGo :
    ∀ (n : Nat) (d : List Nat) (l : Nat), d.length ≤ n →
    (∀ b ∈ d, b < 256) →
    (∃ l2, decLoop 0 l (encGo 0 0 d) = (d, 0, l2, [])) ∨
    decLoop 0 l (encGo 0 0 d) = (d, 2, 0, [61, 61]) ∨
    decLoop 0 l (encGo 0 0 d) = (d, 3, 0, [61]) := by
  intro n
  induction n with
  | zero =>
    intro d l hlen _
    have hd : d = [] := List.length_eq_zero.mp (Nat.le_zero.mp hlen)
    subst hd
    exact Or.inl ⟨l, rfl⟩
  | succ n ih =>
    intro d l hlen hb
    match d with
    | [] => exact Or.inl ⟨l, rfl⟩
    | [b0] =>
      have h0 : b0 < 256 := hb b0 (by simp)
      refine Or.inr (Or.inl ?_)
      rw [encGo_one]
      rw [show (pbase64.getD (b0 / 4) 0 :: pbase64.getD (b0 % 4 * 16) 0 ::
            61 :: 61 :: ([] : List Nat)) =
          pbase64.getD (b0 / 4) 0 :: pbase64.getD (b0 % 4 * 16) 0 ::
            [61, 61] from rfl]
      rw [decLoop_hit0 l _ (b0 / 4) _ (decode_pbase64 (b0 / 4) (by omega))]
      rw [decLoop_hit1 _ _ (b0 % 4 * 16) _
        (decode_pbase64 (b0 % 4 * 16) (by omega))]
      rw [show b0 % 4 * 16 % 16 = 0 from by omega]
      rw [decLoop_stop2]
      simp only []
      rw [show (b0 / 4 * 4 + b0 % 4 * 16 / 16) % 256 = b0 from by omega]
    | [b0, b1] =>
      have h0 : b0 < 256 := hb b0 (by simp)
      have h1 : b1 < 256 := hb b1 (by simp)
      refine Or.inr (Or.inr ?_)
      rw [encGo_two]
      rw [show (pbase64.getD (b0 / 4) 0 ::
            pbase64.getD (b0 % 4 * 16 + b1 / 16) 0 ::
            pbase64.getD (b1 % 16 * 4) 0 :: 61 :: ([] : List Nat)) =
          pbase64.getD (b0 / 4) 0 :: pbase64.getD (b0 % 4 * 16 + b1 / 16) 0 ::
            pbase64.getD (b1 % 16 * 4) 0 :: [61] from rfl]
      rw [decLoop_hit0 l _ (b0 / 4) _ (decode_pbase64 (b0 / 4) (by omega))]
      rw [decLoop_hit1 _ _ (b0 % 4 * 16 + b1 / 16) _
        (decode_pbase64 (b0 % 4 * 16 + b1 / 16) (by omega))]
      rw [decLoop_hit2 _ _ (b1 % 16 * 4) _
        (decode_pbase64 (b1 % 16 * 4) (by omega))]
      rw [show b1 % 16 * 4 % 4 = 0 from by omega]
      rw [decLoop_stop3]
      simp only []
      rw [show (b0 / 4 * 4 + (b0 % 4 * 16 + b1 / 16) / 16) % 256 = b0 from
            by omega,
          show ((b0 % 4 * 16 + b1 / 16) % 16 * 16 + b1 % 16 * 4 / 4) % 256 = b1
            from by omega]
    | b0 :: b1 :: b2 :: rest =>
      have h0 : b0 < 256 := hb b0 (by simp)
      have h1 : b1 < 256 := hb b1 (by simp)
      have h2 : b2 < 256 := hb b2 (by simp)
      have hbr : ∀ b ∈ rest, b < 256 := fun b hm => hb b (by simp [hm])
      have hlenr : rest.length ≤ n := by
        simp only [List.length_cons] at hlen
        omega
      rw [encGo_three]
      rw [decLoop_hit0 l _ (b0 / 4) _ (decode_pbase64 (b0 / 4) (by omega))]
      rw [decLoop_hit1 _ _ (b0 % 4 * 16 + b1 / 16) _
        (decode_pbase64 (b0 % 4 * 16 + b1 / 16) (by omega))]
      rw [decLoop_hit2 _ _ (b1 % 16 * 4 + b2 / 64) _
        (decode_pbase64 (b1 % 16 * 4 + b2 / 64) (by omega))]
      rw [decLoop_hit3 _ _ (b2 % 64) _ (decode_pbase64 (b2 % 64) (by omega))]
      rw [show (b0 / 4 * 4 + (b0 % 4 * 16 + b1 / 16) / 16) % 256 = b0 from
            by omega,
          show ((b0 % 4 * 16 + b1 / 16) % 16 * 16 +
              (b1 % 16 * 4 + b2 / 64) / 4) % 256 = b1 from by omega,
          show ((b1 % 16 * 4 + b2 / 64) % 4 * 64 + b2 % 64) % 256 = b2 from
            by omega]
      rcases ih rest ((b1 % 16 * 4 + b2 / 64) % 4) hlenr hbr with
        ⟨l2, hEq⟩ | hEq | hEq
      · exact Or.inl ⟨l2, by rw [hEq]⟩
      · exact Or.inr (Or.inl (by rw [hEq]))
      · exact Or.inr (Or.inr (by rw [hEq]))

/-- C9: for every byte string `d` (including the empty string), decoding the
base64 encoding of `d` recovers `d` exactly and reports the input as valid:
`DecodeBase64(EncodeBase64(d).c_str(), &invalid)` returns `d` with
`invalid == false`. -/
theorem C9_base64_roundtrip (d : List Nat) (hb : ∀ b ∈ d, b < 256) :
    DecodeBase64 (EncodeBase64 d) = (d, false) := by
  have ht0 : decode64_table.getD 0 (-1) = -1 := rfl
  rcases decLoop_encGo d.length d 0 le_rfl hb with ⟨l2, h⟩ | h | h <;>
    simp [DecodeBase64, EncodeBase64, h, charAt, ht0] <;> rfl

theorem C9_base64_roundtrip_witness :
    (∀ b ∈ [110, 101, 98, 108, 105, 111], b < 256) ∧
      DecodeBase64 (EncodeBase64 [110, 101, 98, 108, 105, 111]) =
        ([110, 101, 98, 108, 105, 111], false) :=
  ⟨by decide, C9_base64_roundtrip [110, 101, 98, 108, 105, 111] (by decide)⟩

end Base64

section Money

/-- Modelled from the spec: `COIN`, the number of base monetary units per
coin, is not defined in the provided source excerpt; its standard value 10^8
is pinned by the eight fractional digits of `FormatMoney` and the ten-digit
whole-part guard of `ParseMoney`. -/
def COIN : Nat := 100000000

/-- Modelled from the spec: `CENT`, one hundredth of `COIN`; `ParseMoney`
uses it only through `CENT * 10 = 10^7`, the place value of the first
fractional digit. -/
def CENT : Nat := 1000000

/-- `isdigit` of the C locale on a character code: `0` to `9`. -/
def isdigitC (c : Nat) : Bool := decide (48 ≤ c ∧ c ≤ 57)

/-- `isspace` of the C locale on a character code: space, or horizontal tab
through carriage return (codes 9 to 13). -/
def isspaceC (c : Nat) : Bool := decide (c = 32 ∨ (9 ≤ c ∧ c ≤ 13))

/-- Decimal digit characters of `n`, most significant first, with explicit
fuel making the recursion structural (`decimalStr` passes fuel `n + 1`, which
always suffices).  This is the `{}` formatting of the nonnegative int64
`quotient` in `FormatMoney`. -/
def natToDigits : Nat → Nat → List Nat
  | 0, _ => []
  | fuel + 1, n =>
      if n < 10 then [48 + n]
      else natToDigits fuel (n / 10) ++ [48 + n % 10]

def decimalStr (n : Nat) : List Nat := natToDigits (n + 1) n

/-- The `{:08}` formatting of `remainder` in `FormatMoney`: exactly eight
zero-padded decimal digit characters (the remainder mod `COIN` always fits
in eight digits). -/
def pad8 (r : Nat) : List Nat :=
  (List.range 8).map fun j => 48 + r / 10 ^ (7 - j) % 10

/-- The right-trim loop of `FormatMoney`: starting from index `i` and moving
left, count the characters with `str[i] == '0'` whose guard
`isdigit(str[i - 2])` holds, stopping at the first failure.  In every
reachable state the scan stops no later than two places after the decimal
point (where `str[i - 2]` is the point itself), so the C index `i - 2` never
goes below zero and truncated subtraction is faithful. -/
def trimCount (s : List Nat) : Nat → Nat
  | 0 => 0
  | i + 1 =>
      if s.getD (i + 1) 0 = 48 ∧ isdigitC (s.getD (i - 1) 0) then
        1 + trimCount s i
      else 0

/-- `FormatMoney(n, fPlus)` as the list of character codes: format
`n_abs / COIN` and the eight zero-padded digits of `n_abs % COIN` around the
decimal point (char 46), right-trim trailing zeros, then prepend `-`
(char 45) when `n` is negative, or `+` (char 43) when requested and positive.
`n_abs` is nonnegative, so C's truncated int64 division and remainder agree
with the natural-number ones used here, and `erase(size - nTrim, nTrim)`
keeps exactly the first `size - nTrim` characters. -/
def FormatMoney (n : Int) (fPlus : Bool) : List Nat :=
  let n_abs : Int := if n > 0 then n else -n
  let quotient : Nat := n_abs.toNat / COIN
  let remainder : Nat := n_abs.toNat % COIN
  let str := decimalStr quotient ++ 46 :: pad8 remainder
  let nTrim := trimCount str (str.length - 1)
  let str2 := if nTrim ≠ 0 then str.take (str.length - nTrim) else str
  if n < 0 then 45 :: str2
  else if fPlus ∧ n > 0 then 43 :: str2
  else str2

/-- The fractional-part loop of `ParseMoney`: consume digit characters while
`nMult > 0`, adding `nMult * digit` to `nUnits` and dividing `nMult` by ten;
returns the accumulated `nUnits` and the unconsumed remainder of the
string. -/
def fracLoop : Nat → Nat → List Nat → Nat × List Nat
  | _, nUnits, [] => (nUnits, [])
  | nMult, nUnits, c :: rest =>
      if isdigitC c ∧ 0 < nMult then
        fracLoop (nMult / 10) (nUnits + nMult * (c - 48)) rest
      else (nUnits, c :: rest)

/-- The main character loop of `ParseMoney`: accumulate whole-part digit
characters into `strWhole`; a decimal point runs the fractional loop (with
`nMult = CENT * 10`) and stops; a space stops with the space unconsumed; any
other character is a parse failure.  The end of the string stops the loop.
Returns `strWhole`, `nUnits` and the unconsumed remainder. -/
def mainLoop : List Nat → List Nat → Option (List Nat × Nat × List Nat)
  | strWhole, [] => some (strWhole, 0, [])
  | strWhole, c :: rest =>
      if c = 46 then
        some (strWhole, (fracLoop (CENT * 10) 0 rest).1,
          (fracLoop (CENT * 10) 0 rest).2)
      else if isspaceC c then some (strWhole, 0, c :: rest)
      else if isdigitC c then mainLoop (strWhole ++ [c]) rest
      else none

/-- Modelled from the spec: `atoi64` (`strtoll`), applied by `ParseMoney`
only to the accumulated `strWhole`; on a (possibly empty) string of decimal
digit characters it is the base-10 value. -/
def atoi64 (s : List Nat) : Nat :=
  s.foldl (fun acc c => acc * 10 + (c - 48)) 0

/-- `ParseMoney(pszIn, nRet)` with the Bool result and the `nRet`
out-parameter folded into an `Option`: skip leading spaces, run the main
loop, require every unconsumed character to be a space, at most ten
whole-part digits (the 63-bit overflow guard) and `nUnits` at most `COIN`
(`nUnits < 0` is impossible: it is a sum of nonnegative terms bounded by
`COIN`), and return `nWhole * COIN + nUnits` (which the guards keep inside
int64 range, so the C arithmetic is exact). -/
def ParseMoney (s : List Nat) : Option Int :=
  match mainLoop [] (s.dropWhile isspaceC) with
  | none => none
  | some (strWhole, nUnits, rest) =>
      if rest.all isspaceC then
        if strWhole.length > 10 then none
        else if nUnits > COIN then none
        else some ((atoi64 strWhole * COIN + nUnits : Nat) : Int)
      else none

theorem natToDigits_mem :
    ∀ (fuel n c : Nat), c ∈ natToDigits fuel n → 48 ≤ c ∧ c ≤ 57 := by
  intro fuel
  induction fuel with
  | zero => intro n c h; simp [natToDigits] at h
  | succ fuel ih =>
    intro n c h
    by_cases hn : n < 10
    · simp [natToDigits, hn] at h
      omega
    · simp [natToDigits, hn] at h
      rcases h with h | h
      · exact ih _ _ h
      · have : n % 10 < 10 := Nat.mod_lt _ (by norm_num)
        omega

theorem natToDigits_ne_nil (fuel n : Nat) (hf : 0 < fuel) :
    natToDigits fuel n ≠ [] := by
  match fuel, hf with
  | fuel + 1, _ =>
    by_cases hn : n < 10 <;> simp [natToDigits, hn]

theorem natToDigits_val :
    ∀ (fuel n acc : Nat), n < 10 ^ fuel →
    (natToDigits fuel n).foldl (fun a c => a * 10 + (c - 48)) acc =
      acc * 10 ^ (natToDigits fuel n).length + n := by
  intro fuel
  induction fuel with
  | zero =>
    intro n acc h
    simp [natToDigits]
    omega
  | succ fuel ih =>
    intro n acc h
    by_cases hn : n < 10
    · simp [natToDigits, hn]
    · have h10 : 10 ≤ n := Nat.not_lt.mp hn
      have hp : 10 ^ (fuel + 1) = 10 ^ fuel * 10 := pow_succ 10 fuel
      have hdiv : n / 10 < 10 ^ fuel := by omega
      simp only [natToDigits, if_neg hn]
      rw [List.foldl_append, ih (n / 10) acc hdiv]
      simp only [List.foldl_cons, List.foldl_nil, List.length_append,
        List.length_cons, List.length_nil]
      rw [pow_succ, ← mul_assoc]
      omega

theorem natToDigits_length_le :
    ∀ (fuel n k : Nat), n < 10 ^ k → 0 < k →
      (natToDigits fuel n).length ≤ k := by
  intro fuel
  induction fuel with
  | zero => intro n k _ hk; simp [natToDigits]
  | succ fuel ih =>
    intro n k h hk
    by_cases hn : n < 10
    · simp [natToDigits, hn]
      omega
    · have h10 : 10 ≤ n := Nat.not_lt.mp hn
      have hk2 : 2 ≤ k := by
        by_contra hc
        have hk1 : k = 1 := by omega
        subst hk1
        simp at h
        omega
      have hp : 10 ^ k = 10 ^ (k - 1) * 10 := by
        conv_lhs => rw [show k = (k - 1) + 1 from by omega]
        exact pow_succ 10 (k - 1)
      have hdiv : n / 10 < 10 ^ (k - 1) := by omega
      simp only [natToDigits, if_neg hn, List.length_append, List.length_cons,
        List.length_nil]
      have := ih (n / 10) (k - 1) hdiv (by omega)
      omega

theorem pad8_length (r : Nat) : (pad8 r).length = 8 := by simp [pad8]

theorem pad8_mem (r c : Nat) (h : c ∈ pad8 r) : 48 ≤ c ∧ c ≤ 57 := by
  simp [pad8] at h
  obtain ⟨j, _, rfl⟩ := h
  have : r / 10 ^ (7 - j) % 10 < 10 := Nat.mod_lt _ (by norm_num)
  omega

theorem pad8_eq (r : Nat) :
    pad8 r = [48 + r / 10000000 % 10, 48 + r / 1000000 % 10,
      48 + r / 100000 % 10, 48 + r / 10000 % 10, 48 + r / 1000 % 10,
      48 + r / 100 % 10, 48 + r / 10 % 10, 48 + r % 10] := by
  simp [pad8, List.range_succ]

/-- Value of a digit string as accumulated by the fractional loop of
`ParseMoney`: place value `10 ^ e` for the first digit, descending. -/
def fracSum : Nat → List Nat → Nat
  | _, [] => 0
  | e, c :: rest => 10 ^ e * (c - 48) + fracSum (e - 1) rest

theorem fracLoop_digits :
    ∀ (F : List Nat) (e u : Nat), (∀ c ∈ F, 48 ≤ c ∧ c ≤ 57) →
      F.length ≤ e + 1 →
      fracLoop (10 ^ e) u F = (u + fracSum e F, []) := by
  intro F
  induction F with
  | nil => intro e u _ _; simp [fracLoop, fracSum]
  | cons c rest ih =>
    intro e u hd hlen
    have hc : 48 ≤ c ∧ c ≤ 57 := hd c (by simp)
    have hdig : isdigitC c = true := by simp [isdigitC]; omega
    have hpos : 0 < 10 ^ e := Nat.pos_pow_of_pos e (by norm_num)
    simp only [fracLoop]
    rw [if_pos ⟨by simp [hdig], hpos⟩]
    by_cases hr : rest = []
    · subst hr
      simp [fracLoop, fracSum]
    · have hrlen : 1 ≤ rest.length := List.length_pos.mpr hr
      have he : 1 ≤ e := by
        simp only [List.length_cons] at hlen
        omega
      have hpow : 10 ^ e / 10 = 10 ^ (e - 1) := by
        conv_lhs => rw [show e = (e - 1) + 1 from by omega, pow_succ]
        exact Nat.mul_div_cancel _ (by norm_num)
      rw [hpow, ih (e - 1) _ (fun c2 h2 => hd c2 (by simp [h2]))
        (by simp only [List.length_cons] at hlen; omega)]
      simp only [fracSum, Prod.mk.injEq, and_true]
      omega

theorem fracSum_all48 :
    ∀ (F : List Nat) (e : Nat), (∀ c ∈ F, c = 48) → fracSum e F = 0 := by
  intro F
  induction F with
  | nil => intro e _; rfl
  | cons c rest ih =>
    intro e h
    have hc : c = 48 := h c (by simp)
    simp [fracSum, hc, ih (e - 1) (fun c2 h2 => h c2 (by simp [h2]))]

theorem fracSum_take_of_zeros :
    ∀ (F : List Nat) (e m : Nat), (∀ c ∈ F.drop m, c = 48) →
      fracSum e (F.take m) = fracSum e F := by
  intro F
  induction F with
  | nil => intro e m _; simp
  | cons c rest ih =>
    intro e m hz
    match m with
    | 0 =>
      simp only [List.take_zero, List.drop_zero] at *
      rw [fracSum_all48 _ _ hz]
      rfl
    | m + 1 =>
      simp only [List.take_succ_cons, List.drop_succ_cons] at *
      simp only [fracSum]
      rw [ih (e - 1) m hz]

theorem fracSum_pad8 (r : Nat) (hr : r < COIN) : fracSum 7 (pad8 r) = r := by
  have hr2 : r < 100000000 := hr
  rw [pad8_eq]
  simp only [fracSum]
  norm_num
  omega

theorem getD_str_dot (W F : List Nat) : (W ++ 46 :: F).getD W.length 0 = 46 := by
  rw [List.getD_append_right W (46 :: F) 0 W.length le_rfl, Nat.sub_self]
  rfl

theorem getD_str_frac (W F : List Nat) (x : Nat) :
    (W ++ 46 :: F).getD (W.length + 1 + x) 0 = F.getD x 0 := by
  rw [List.getD_append_right W (46 :: F) 0 _ (by omega)]
  rw [show W.length + 1 + x - W.length = x + 1 from by omega]
  rfl

/-- The trim scan of `FormatMoney` never counts past the first fractional
digit: starting `m` places after `dot + 2` it trims at most `m` characters,
because at `dot + 2` the guard reads the decimal point itself. -/
theorem trim_le (W F : List Nat) :
    ∀ m, trimCount (W ++ 46 :: F) (W.length + 2 + m) ≤ m := by
  intro m
  induction m with
  | zero =>
    rw [show W.length + 2 + 0 = (W.length + 1) + 1 from by omega]
    simp only [trimCount]
    rw [show W.length + 1 - 1 = W.length from by omega]
    rw [getD_str_dot]
    simp [isdigitC]
  | succ m ih =>
    rw [show W.length + 2 + (m + 1) = (W.length + 2 + m) + 1 from by omega]
    simp only [trimCount]
    split
    · omega
    · omega

/-- Every character position the trim scan counted holds the character `0`. -/
theorem trim_zeros (W F : List Nat) :
    ∀ m j,
      W.length + 2 + m - trimCount (W ++ 46 :: F) (W.length + 2 + m) < j →
      j ≤ W.length + 2 + m → (W ++ 46 :: F).getD j 0 = 48 := by
  intro m
  induction m with
  | zero =>
    intro j h1 h2
    have h0 : trimCount (W ++ 46 :: F) (W.length + 2 + 0) ≤ 0 := trim_le W F 0
    omega
  | succ m ih =>
    intro j h1 h2
    have hle : trimCount (W ++ 46 :: F) (W.length + 2 + m) ≤ m := trim_le W F m
    rw [show W.length + 2 + (m + 1) = (W.length + 2 + m) + 1 from by omega]
      at h1 h2
    simp only [trimCount] at h1
    by_cases hcond : (W ++ 46 :: F).getD (W.length + 2 + m + 1) 0 = 48 ∧
        isdigitC ((W ++ 46 :: F).getD (W.length + 2 + m - 1) 0)
    · rw [if_pos hcond] at h1
      by_cases hj : j = W.length + 2 + m + 1
      · subst hj
        exact hcond.1
      · exact ih j (by omega) (by omega)
    · rw [if_neg hcond] at h1
      omega

/-- The main loop of `ParseMoney` on a digit string followed by a decimal
point: the digits all land in `strWhole` and the fractional loop takes over
after the point. -/
theorem mainLoop_digits :
    ∀ (W acc rest2 : List Nat), (∀ c ∈ W, 48 ≤ c ∧ c ≤ 57) →
      mainLoop acc (W ++ 46 :: rest2) =
        some (acc ++ W, (fracLoop (CENT * 10) 0 rest2).1,
          (fracLoop (CENT * 10) 0 rest2).2) := by
  intro W
  induction W with
  | nil =>
    intro acc rest2 _
    simp [mainLoop]
  | cons c W ih =>
    intro acc rest2 hW
    have hc := hW c (by simp)
    have h46 : ¬(c = 46) := by omega
    have hsp : ¬(isspaceC c = true) := by simp [isspaceC]; omega
    have hdg : isdigitC c = true := by simp [isdigitC]; omega
    simp only [List.cons_append, mainLoop]
    rw [if_neg h46, if_neg hsp, if_pos hdg]
    rw [List.append_eq]
    rw [ih (acc ++ [c]) rest2 (fun c2 h2 => hW c2 (by simp [h2]))]
    simp

theorem take_trim_eq (str : List Nat) (t : Nat) :
    (if t ≠ 0 then str.take (str.length - t) else str) =
      str.take (str.length - t) := by
  split
  · rfl
  · rename_i h
    have ht : t = 0 := by omega
    subst ht
    rw [Nat.sub_zero, List.take_length]

/-- `ParseMoney` on a nonempty digit string, a decimal point and at most
eight fractional digit characters: it succeeds with
`atoi64(whole) * COIN + fracSum(frac)`. -/
theorem parse_format_core (W F2 : List Nat)
    (hWdig : ∀ c ∈ W, 48 ≤ c ∧ c ≤ 57) (hWne : W ≠ [])
    (hWlen : W.length ≤ 10) (hF2dig : ∀ c ∈ F2, 48 ≤ c ∧ c ≤ 57)
    (hF2len : F2.length ≤ 8) (hunits : fracSum 7 F2 ≤ COIN) :
    ParseMoney (W ++ 46 :: F2) =
      some ((atoi64 W * COIN + fracSum 7 F2 : Nat) : Int) := by
  obtain ⟨c0, W2, rfl⟩ : ∃ c0 W2, W = c0 :: W2 := by
    cases W with
    | nil => exact absurd rfl hWne
    | cons a b => exact ⟨a, b, rfl⟩
  have hc0 := hWdig c0 (by simp)
  have hdw : ((c0 :: W2) ++ 46 :: F2).dropWhile isspaceC =
      (c0 :: W2) ++ 46 :: F2 := by
    rw [List.cons_append, List.dropWhile_cons,
      if_neg (by simp [isspaceC]; omega)]
  simp only [ParseMoney]
  rw [hdw]
  rw [mainLoop_digits (c0 :: W2) [] F2 hWdig]
  rw [show CENT * 10 = 10 ^ 7 from by norm_num [CENT]]
  rw [fracLoop_digits F2 7 0 hF2dig (by omega)]
  simp only [List.nil_append, Nat.zero_add, List.all_nil, if_true]
  rw [if_neg (by omega : ¬((c0 :: W2).length > 10))]
  rw [if_neg (by omega : ¬(fracSum 7 F2 > COIN))]

/-- `ParseMoney` inverts the trimmed decimal rendering produced by
`FormatMoney` for a nonnegative amount `q * COIN + r`. -/
theorem parse_format_aux (q r : Nat) (hq : q < 10 ^ 10) (hr : r < COIN) :
    ParseMoney ((decimalStr q ++ 46 :: pad8 r).take
      ((decimalStr q ++ 46 :: pad8 r).length -
        trimCount (decimalStr q ++ 46 :: pad8 r)
          ((decimalStr q ++ 46 :: pad8 r).length - 1))) =
      some ((q * COIN + r : Nat) : Int) := by
  have hWdig : ∀ c ∈ decimalStr q, 48 ≤ c ∧ c ≤ 57 := by
    intro c hc
    simp only [decimalStr] at hc
    exact natToDigits_mem _ _ _ hc
  have hWne : decimalStr q ≠ [] := by
    simp only [decimalStr]
    exact natToDigits_ne_nil _ _ (by omega)
  have hWlen : (decimalStr q).length ≤ 10 := by
    simp only [decimalStr]
    exact natToDigits_length_le _ _ 10 hq (by norm_num)
  have hFlen : (pad8 r).length = 8 := pad8_length r
  have hslen : (decimalStr q ++ 46 :: pad8 r).length =
      (decimalStr q).length + 9 := by
    simp [hFlen]
  set t := trimCount (decimalStr q ++ 46 :: pad8 r)
    ((decimalStr q ++ 46 :: pad8 r).length - 1) with htdef
  have ht2 : t = trimCount (decimalStr q ++ 46 :: pad8 r)
      ((decimalStr q).length + 2 + 6) := by
    rw [htdef, hslen]
    rw [show (decimalStr q).length + 9 - 1 = (decimalStr q).length + 2 + 6
      from by omega]
  have hle : t ≤ 6 := by
    rw [ht2]
    exact trim_le _ _ 6
  have hkeep : (decimalStr q ++ 46 :: pad8 r).take
      ((decimalStr q ++ 46 :: pad8 r).length - t) =
      decimalStr q ++ 46 :: (pad8 r).take (8 - t) := by
    rw [hslen, List.take_append_eq_append_take,
      List.take_of_length_le (by omega)]
    rw [show (decimalStr q).length + 9 - t - (decimalStr q).length =
      (8 - t) + 1 from by omega]
    rw [List.take_succ_cons]
  have hz : ∀ c ∈ (pad8 r).drop (8 - t), c = 48 := by
    intro c hcm
    obtain ⟨i, hi, hgi⟩ := List.mem_iff_getElem.mp hcm
    have hi8 : 8 - t + i < 8 := by
      rw [List.length_drop, hFlen] at hi
      omega
    have hgd : (pad8 r).getD (8 - t + i) 0 = c := by
      rw [List.getD_eq_getElem _ _ (by omega : 8 - t + i < (pad8 r).length)]
      rw [← hgi, List.getElem_drop]
    have hpos := trim_zeros (decimalStr q) (pad8 r) 6
      ((decimalStr q).length + 1 + (8 - t + i)) (by rw [← ht2]; omega)
      (by omega)
    rw [getD_str_frac, hgd] at hpos
    exact hpos
  have hunits : fracSum 7 ((pad8 r).take (8 - t)) = r := by
    rw [fracSum_take_of_zeros _ _ _ hz, fracSum_pad8 r hr]
  have hato : atoi64 (decimalStr q) = q := by
    have hqf : q < 10 ^ (q + 1) :=
      Nat.lt_of_lt_of_le (Nat.lt_pow_self (by norm_num) q)
        (Nat.pow_le_pow_right (by norm_num) (Nat.le_succ q))
    simp only [atoi64, decimalStr]
    rw [natToDigits_val (q + 1) q 0 hqf]
    simp
  rw [hkeep]
  rw [parse_format_core (decimalStr q) ((pad8 r).take (8 - t)) hWdig hWne hWlen
    (fun c h2 => pad8_mem r c (List.mem_of_mem_take h2))
    (by simp [List.length_take, hFlen])
    (by rw [hunits]; omega)]
  rw [hato, hunits]

/-- C10: for every amount `n` with `0 ≤ n < 10^18` (whole-coin part at most
ten decimal digits), `ParseMoney(FormatMoney(n, false))` succeeds and yields
`n` back unchanged — the trailing-zero trimming inside `FormatMoney` never
alters the parsed value — while a negative amount is formatted with a
leading `-` (char 45) that `ParseMoney` rejects. -/
theorem C10_money_roundtrip (n : Int) :
    (0 ≤ n → n < 10 ^ 18 → ParseMoney (FormatMoney n false) = some n) ∧
    (n < 0 → (FormatMoney n false).head? = some 45 ∧
      ParseMoney (FormatMoney n false) = none) := by
  constructor
  · intro hn hlt
    have habs : (if n > 0 then n else -n) = n := by
      split <;> omega
    have hfmt : FormatMoney n false =
        (decimalStr (n.toNat / COIN) ++ 46 :: pad8 (n.toNat % COIN)).take
          ((decimalStr (n.toNat / COIN) ++
              46 :: pad8 (n.toNat % COIN)).length -
            trimCount
              (decimalStr (n.toNat / COIN) ++ 46 :: pad8 (n.toNat % COIN))
              ((decimalStr (n.toNat / COIN) ++
                  46 :: pad8 (n.toNat % COIN)).length - 1)) := by
      simp only [FormatMoney, habs]
      rw [if_neg (by omega : ¬(n < 0))]
      rw [if_neg (by simp : ¬((false : Bool) = true ∧ n > 0))]
      exact take_trim_eq _ _
    have hlt2 : n < 1000000000000000000 := by
      norm_num at hlt
      exact hlt
    have h18 : n.toNat < 1000000000000000000 := by
      have := Int.toNat_of_nonneg hn
      omega
    have hq : n.toNat / COIN < 10 ^ 10 := by
      have : n.toNat / 100000000 < 10000000000 := by omega
      simpa [COIN] using this
    have hr : n.toNat % COIN < COIN := Nat.mod_lt _ (by norm_num [COIN])
    rw [hfmt, parse_format_aux _ _ hq hr]
    congr 1
    rw [Nat.div_add_mod']
    exact Int.toNat_of_nonneg hn
  · intro hn
    constructor
    · simp only [FormatMoney]
      rw [if_pos hn]
      rfl
    · simp only [FormatMoney]
      rw [if_pos hn]
      simp only [ParseMoney]
      rw [List.dropWhile_cons, if_neg (by decide : ¬(isspaceC 45 = true))]
      simp only [mainLoop]
      rw [if_neg (by decide : ¬((45 : Nat) = 46)),
        if_neg (by decide : ¬(isspaceC 45 = true)),
        if_neg (by decide : ¬(isdigitC 45 = true))]

end Money

end Neblio
